import Mathlib

/-!
# Verification of the `ase/neb.py` minimum-energy-path module

Shallow embedding of the NEB / chain-of-states code in `src/ase/neb.py`.

Modelling conventions:
* IEEE floats are modelled as exact rationals (`ℚ`).  Float division is
  modelled by the checked division `qdiv`, which returns `none` where IEEE
  division would produce `nan`/`inf` (division by zero); `ℚ`'s own
  zero-denominator convention (`x / 0 = 0`) would silently diverge from the
  source there.
* `np.sqrt` is not `ℚ`-valued in general, so the force pipeline is
  parametrised over a square-root oracle `sq : ℚ → ℚ`.  Concrete statements
  instantiate it with the table `sqTab` (exact on every radicand the
  concrete chains produce) or with `id`.
* Chains are modelled in the non-periodic case: per the spec (§4.1) the
  minimum-image convention `find_mic` passes non-periodic axes through
  unchanged, so `find_mic(d, cell, pbc=False)[0] = d`.
* `numpy` row vectors of shape `(3,)` are `Vec3 := ℚ × ℚ × ℚ`; `(N, 3)`
  arrays are `List Vec3`; flattened vectors are `List ℚ`.
-/

/-- A 3-vector, one atomic position or force row. -/
abbrev Vec3 : Type := ℚ × ℚ × ℚ

def v3zero : Vec3 := (0, 0, 0)

def v3add (a b : Vec3) : Vec3 := (a.1 + b.1, a.2.1 + b.2.1, a.2.2 + b.2.2)

def v3sub (a b : Vec3) : Vec3 := (a.1 - b.1, a.2.1 - b.2.1, a.2.2 - b.2.2)

def v3smul (c : ℚ) (a : Vec3) : Vec3 := (c * a.1, c * a.2.1, c * a.2.2)

def v3dot (a b : Vec3) : ℚ := a.1 * b.1 + a.2.1 * b.2.1 + a.2.2 * b.2.2

/-- Squared Euclidean norm of one row. -/
def v3normSq (a : Vec3) : ℚ := v3dot a a

/-- Elementwise sum of two `(N, 3)` arrays (`numpy +`). -/
def aAdd (a b : List Vec3) : List Vec3 := List.zipWith v3add a b

/-- Elementwise difference of two `(N, 3)` arrays (`numpy -`). -/
def aSub (a b : List Vec3) : List Vec3 := List.zipWith v3sub a b

/-- Scalar multiple of an `(N, 3)` array. -/
def aSmul (c : ℚ) (a : List Vec3) : List Vec3 := a.map (v3smul c)

/-- `np.vdot` on two `(N, 3)` arrays: sum over every entry. -/
def aDot (a b : List Vec3) : ℚ := (List.zipWith v3dot a b).sum

/-- Frobenius-squared norm of an `(N, 3)` array, the radicand of
`np.linalg.norm`. -/
def aNormSq (a : List Vec3) : ℚ := aDot a a

/-- Checked division: `none` exactly where IEEE float division of the source
would produce `nan`/`inf`. -/
def qdiv (a b : ℚ) : Option ℚ := if b = 0 then none else some (a / b)

/-- Elementwise division of an `(N, 3)` array by a scalar, checked. -/
def aDivs (a : List Vec3) (c : ℚ) : Option (List Vec3) :=
  if c = 0 then none else some (aSmul c⁻¹ a)

/-- `np.cumsum`, prefix sums accumulated from `acc`. -/
def cumsumAux (acc : ℚ) : List ℚ → List ℚ
  | [] => []
  | a :: t => (acc + a) :: cumsumAux (acc + a) t

/-- `np.cumsum` of a 1-D array. -/
def cumsum (l : List ℚ) : List ℚ := cumsumAux 0 l

/-- One step of stable insertion sort on indices, comparing by value in `v`:
`i` is inserted after every already-placed index of value `≤ v[i]`. -/
def insertIdx (v : List ℚ) (i : ℕ) : List ℕ → List ℕ
  | [] => [i]
  | j :: rest => if v.getD i 0 < v.getD j 0 then i :: j :: rest
                 else j :: insertIdx v i rest

/-- `np.argsort` on a 1-D array.  For the short arrays arising here numpy's
argsort runs insertion sort, which is stable; on ties the index order is
preserved (in particular `np.argsort` of an all-equal array is the identity
permutation). -/
def argsortQ (v : List ℚ) : List ℕ :=
  (List.range v.length).foldl (fun s i => insertIdx v i s) []

/-- `self.imax = 1 + np.argsort(energies[1:-1])[-1]` (`neb.py:313`). -/
def imaxOf (energies : List ℚ) : ℕ :=
  1 + (argsortQ ((energies.drop 1).dropLast)).getLastD 0

/-!
## Data model: images and chains (`ChainOfStates`, `neb.py:22`)

A configuration carries atomic numbers, the periodic-boundary mask and the
positions; the calculator attached to an image is an external oracle, its
outputs (energies, raw forces) are passed to the force routines as data.
-/

structure Image where
  numbers : List ℕ
  pbc : List Bool
  positions : List Vec3
  deriving DecidableEq, Repr

/-- Errors surfaced by the Python constructors and methods. -/
inductive PyErr where
  /-- `ValueError` / `NotImplementedError` raised by an explicit check. -/
  | valueError
  /-- `NotImplementedError(method)` (`neb.py:200`). -/
  | notImplemented
  /-- Python `TypeError` from a call with the wrong arity. -/
  | typeError
  /-- `IndexError` from `images[0]` on an empty list. -/
  | indexError
  deriving DecidableEq, Repr

/-- The consistency condition of spec §3: all images share the atom count,
the periodic-boundary mask, and the atomic numbers in identical order.
(Equal number lists subsume the equal atom count.) -/
def chainConsistent : List Image → Bool
  | [] => false
  | i0 :: rest =>
    (i0 :: rest).all fun im => im.numbers = i0.numbers && im.pbc = i0.pbc

/-- The per-image checks of `ChainOfStates.__init__` (`neb.py:30`–`37`),
run against the head image's atom count / pbc / numbers. -/
def chainChecks (n0 : ℕ) (p0 : List Bool) (z0 : List ℕ) :
    List Image → Except PyErr Unit
  | [] => .ok ()
  | img :: rest =>
    if img.numbers.length ≠ n0 then .error .valueError
    else if img.pbc ≠ p0 then .error .valueError
    else if img.numbers ≠ z0 then .error .valueError
    else chainChecks n0 p0 z0 rest

/-- `ChainOfStates.__init__` (`neb.py:26`): `len(images[0])` faults on an
empty list; otherwise every image is checked against image 0. -/
def chainInitE : List Image → Except PyErr Unit
  | [] => .error .indexError
  | i0 :: rest => chainChecks i0.numbers.length i0.pbc i0.numbers (i0 :: rest)

/-- `NEB.__init__` (`neb.py:183`–`211`): the `ChainOfStates` checks run
first, then the `scale_fmax`-without-`dynamic_relaxation` check
(`neb.py:192`), then the method check (`neb.py:197`).  The serial world has
size 1, so the `parallel` assertion always passes. -/
def nebInitE (images : List Image) (dynamicRelaxation : Bool)
    (scaleFmax : ℚ) (method : String) : Except PyErr Unit := do
  _ ← chainInitE images
  if ¬dynamicRelaxation ∧ scaleFmax ≠ 0 then
    .error .valueError
  else if method ∈ ["aseneb", "eb", "improvedtangent"] then
    .ok ()
  else
    .error .notImplemented

/-!
## Positions, degrees of freedom, `set_positions`
-/

/-- Flatten an `(R, 3)` array to a vector (`reshape(-1)`). -/
def flattenV : List Vec3 → List ℚ
  | [] => []
  | (a, b, c) :: t => a :: b :: c :: flattenV t

/-- `reshape((-1, 3))` of a flat vector into rows. -/
def chunk3 : List ℚ → List Vec3
  | [] => []
  | [_] => []
  | [_, _] => []
  | a :: b :: c :: t => (a, b, c) :: chunk3 t

/-- The interior images `images[1:-1]`. -/
def interiorOf (c : List Image) : List Image := (c.drop 1).dropLast

/-- `ChainOfStates.get_positions` (`neb.py:63`): interior positions stacked
into an `((M-2)·N, 3)` array. -/
def chainGetPositions (c : List Image) : List Vec3 :=
  ((interiorOf c).map Image.positions).flatten

/-- `ChainOfStates.get_dofs` (`neb.py:73`). -/
def chainGetDofs (c : List Image) : List ℚ := flattenV (chainGetPositions c)

/-- One pass of the `set_positions` loop body over `images[1:]`, writing
consecutive `natoms`-row chunks and leaving the final image untouched
(the loop runs over `images[1:-1]`). -/
def setInterior (natoms : ℕ) : List Image → List Vec3 → List Image
  | [], _ => []
  | [lastImg], _ => [lastImg]
  | img :: rest, rows =>
    { img with positions := rows.take natoms } ::
      setInterior natoms rest (rows.drop natoms)

/-- `ChainOfStates.set_positions` (`neb.py:77`). -/
def chainSetPositions (natoms : ℕ) (c : List Image) (rows : List Vec3) :
    List Image :=
  match c with
  | [] => []
  | i0 :: rest => i0 :: setInterior natoms rest rows

/-- `NEB.set_positions` (`neb.py:221`–`241`).  With `dynamic_relaxation` the
first loop iteration evaluates `self.get_fmax_all(self.images)`; but
`ChainOfStates.get_fmax_all` (`neb.py:97`) accepts no argument besides
`self`, so Python raises `TypeError` before any image is moved (with
`parallel` the explicit `ValueError` of `neb.py:229` fires first).  The
loop body never runs when there is no interior image. -/
def nebSetPositions (dynamicRelaxation parallel : Bool) (natoms : ℕ)
    (c : List Image) (rows : List Vec3) : Except PyErr (List Image) :=
  match c with
  | [] => .ok []
  | i0 :: rest =>
    if rest.length ≤ 1 then .ok (i0 :: rest)
    else if dynamicRelaxation then
      if parallel then .error .valueError else .error .typeError
    else .ok (i0 :: setInterior natoms rest rows)

/-- `ChainOfStates.set_dofs` (`neb.py:85`) through `NEB.set_positions`. -/
def nebSetDofs (dynamicRelaxation parallel : Bool) (natoms : ℕ)
    (c : List Image) (dofs : List ℚ) : Except PyErr (List Image) :=
  nebSetPositions dynamicRelaxation parallel natoms c (chunk3 dofs)

/-!
## The NEB force pipeline (`NEB.get_forces`, `neb.py:243`–`426`)

Energies and raw forces are the calculator oracle outputs at the current
positions and enter as data; the serial evaluation path is modelled.  The
projected force of one interior image is a function of the chain alone
(the in-place loop of the source only ever reads/writes image `i`'s own
block at iteration `i`, and the `t1 ← t2` recurrence just caches
`positions[i] - positions[i-1]`).
-/

inductive NebMethod where
  | aseneb
  | improvedtangent
  | eb
  deriving DecidableEq, Repr

/-- The projected (effective) force of interior image `i ∈ 1..M-2`:
the loop body of `neb.py:329`–`405` for one `i`. -/
def imageForce (m : NebMethod) (climb : Bool) (k : List ℚ) (sq : ℚ → ℚ)
    (pos : List (List Vec3)) (energies : List ℚ) (rawF : List (List Vec3))
    (imax i : ℕ) : Option (List Vec3) :=
  let M := pos.length
  let e := fun j => energies.getD j 0
  let t1 := aSub (pos.getD i []) (pos.getD (i - 1) [])
  let t2 := aSub (pos.getD (i + 1) []) (pos.getD i [])
  let nt1 := sq (aNormSq t1)
  let nt2 := sq (aNormSq t2)
  let f := rawF.getD (i - 1) []
  match m with
  | .aseneb =>
    let tangent := if i < imax then t2 else if imax < i then t1 else aAdd t1 t2
    let tt := aDot tangent tangent
    let ft := aDot f tangent
    if climb ∧ i = imax then
      (qdiv (2 * ft) tt).map fun c => aSub f (aSmul c tangent)
    else
      (qdiv ft tt).bind fun c1 =>
      (qdiv (aDot (aSub (aSmul (k.getD (i - 1) 0) t1) (aSmul (k.getD i 0) t2))
              tangent) tt).map fun c2 =>
        aSub (aSub f (aSmul c1 tangent)) (aSmul c2 tangent)
  | .improvedtangent =>
    let tangent0 :=
      if e (i + 1) > e i ∧ e i > e (i - 1) then t2
      else if e (i + 1) < e i ∧ e i < e (i - 1) then t1
      else
        let dvmax := max |e (i + 1) - e i| |e (i - 1) - e i|
        let dvmin := min |e (i + 1) - e i| |e (i - 1) - e i|
        if e (i + 1) > e (i - 1) then aAdd (aSmul dvmax t2) (aSmul dvmin t1)
        else aAdd (aSmul dvmin t2) (aSmul dvmax t1)
    (aDivs tangent0 (sq (aNormSq tangent0))).map fun tangent =>
      let ft := aDot f tangent
      if climb ∧ i = imax then aSub f (aSmul (2 * ft) tangent)
      else
        aAdd (aSub f (aSmul ft tangent))
          (aSmul (nt2 * k.getD i 0 - nt1 * k.getD (i - 1) 0) tangent)
  | .eb =>
    let eqlength :=
      sq (aNormSq (aSub (pos.getD (M - 1) []) (pos.getD 0 []))) / ((M : ℚ) - 1)
    (aDivs t1 nt1).bind fun u1 =>
    (aDivs t2 nt2).bind fun u2 =>
    (aDivs (aAdd u1 u2) (sq (aNormSq (aAdd u1 u2)))).bind fun tangent =>
      let ft := aDot f tangent
      if climb ∧ i = imax then some (aSub f (aSmul (2 * ft) tangent))
      else
        let fperp := aSub f (aSmul ft tangent)
        (aDivs (aSmul (-(nt1 - eqlength) * k.getD (i - 1) 0) t1) nt1).bind fun f1 =>
        (aDivs (aSmul ((nt2 - eqlength) * k.getD i 0) t2) nt2).bind fun f2 =>
        if climb ∧ ((i : ℤ) - (imax : ℤ)).natAbs = 1 then
          let dvmax := max |e (i + 1) - e i| |e (i - 1) - e i|
          let dvmin := min |e (i + 1) - e i| |e (i - 1) - e i|
          (qdiv dvmin dvmax).map fun q => aAdd fperp (aSmul q (aAdd f1 f2))
        else some (aAdd fperp (aAdd f1 f2))

/-- `np.sqrt((rows**2).sum(axis=1)).max()` over the rows of one image's
force block (`neb.py:412`); the values are square roots, hence nonnegative,
so folding `max` from `0` agrees with numpy's max over a nonempty array. -/
def rowMaxNorm (sq : ℚ → ℚ) (a : List Vec3) : ℚ :=
  (a.map fun r => sq (v3normSq r)).foldr max 0

/-- The dynamic-relaxation test of `neb.py:407`–`420` for interior image
`i`, evaluated on that image's (already projected) force block `fi`. -/
def dynCond (sq : ℚ → ℚ) (fmax scaleFmax : ℚ) (pos : List (List Vec3))
    (imax i : ℕ) (fi : List Vec3) : Bool :=
  let relPos := sq (aNormSq (aSub (pos.getD i []) (pos.getD imax [])))
  decide (rowMaxNorm sq fi < fmax * (1 + relPos * scaleFmax))

/-- The freezing step of `neb.py:420`–`424`: a block whose test passes is
overwritten with zeros unless it belongs to the highest-energy image
(`k == self.imax - 1` falls into `pass`). -/
def applyDyn (cond : ℕ → List Vec3 → Bool) (imax : ℕ) :
    ℕ → List (List Vec3) → List (List Vec3)
  | _, [] => []
  | j, fj :: rest =>
    (if cond (j + 1) fj ∧ j + 1 ≠ imax then fj.map fun _ => v3zero else fj) ::
      applyDyn cond imax (j + 1) rest

/-- Sequence a list of optional values (`none` as soon as one entry is
`none`): the Option-monad `mapM` written with plain equations. -/
def optList {α : Type} : List (Option α) → Option (List α)
  | [] => some []
  | x :: t => x.bind fun a => (optList t).map fun l => a :: l

/-- The force assembly of `NEB.get_forces` after the calculator sweep:
projected forces for every interior image, then the dynamic-relaxation
freezing pass.  `none` wherever the source's float arithmetic divides by
zero. -/
def nebForces (m : NebMethod) (climb dynamicRelaxation : Bool)
    (fmax scaleFmax : ℚ) (k : List ℚ) (sq : ℚ → ℚ)
    (pos : List (List Vec3)) (energies : List ℚ)
    (rawF : List (List Vec3)) : Option (List (List Vec3)) :=
  let M := pos.length
  let imax := imaxOf energies
  match optList ((List.range (M - 2)).map
      (fun j => imageForce m climb k sq pos energies rawF imax (j + 1))) with
  | none => none
  | some fs =>
    some (if dynamicRelaxation then
            applyDyn (dynCond sq fmax scaleFmax pos imax) imax 0 fs
          else fs)

/-- Centroid of a set of rows (mean position). -/
def centroid (l : List Vec3) : Vec3 :=
  v3smul (1 / (l.length : ℚ)) (l.foldr v3add v3zero)

/-- Modelled from the spec: `align(ref, target)` is
`ase.build.minimize_rotation_and_translation` (not under `src/`), which
per spec §4.1 "rigidly rotates and translates `target` to minimize RMSD
against `ref` (Kabsch-style)".  This is its translation component
(centroid superposition); on the single-atom images used in the concrete
statements below the optimal rotation acts trivially, so there this is the
exact spec alignment. -/
def alignTranslate (ref target : Image) : Image :=
  { target with
    positions := target.positions.map fun p =>
      v3add p (v3sub (centroid ref.positions) (centroid target.positions)) }

/-- The re-alignment sweep of `neb.py:261`–`263`: every image `i ≥ 1` is
aligned against the (already re-aligned) image `i - 1`; the sweep includes
the final endpoint `i = nimages - 1`. -/
def alignPass (align : Image → Image → Image) : Image → List Image → List Image
  | _, [] => []
  | prev, img :: rest =>
    let img2 := align prev img
    img2 :: alignPass align img2 rest

/-- The whole-chain alignment applied by `NEB.get_forces` when
`remove_rotation_and_translation` is set. -/
def nebAlignAll (align : Image → Image → Image) (imgs : List Image) :
    List Image :=
  match imgs with
  | [] => []
  | i0 :: rest => i0 :: alignPass align i0 rest

/-- `NEB.get_forces` as a state transformer: its only effect on positions
is the optional alignment sweep; the returned forces are computed from the
post-alignment positions. -/
def nebGetForcesRun (align : Image → Image → Image) (rrt : Bool)
    (m : NebMethod) (climb dynamicRelaxation : Bool) (fmax scaleFmax : ℚ)
    (k : List ℚ) (sq : ℚ → ℚ) (c : List Image) (energies : List ℚ)
    (rawF : List (List Vec3)) : List Image × Option (List (List Vec3)) :=
  let c2 := if rrt then nebAlignAll align c else c
  (c2, nebForces m climb dynamicRelaxation fmax scaleFmax k sq
        (c2.map Image.positions) energies rawF)

/-!
## IDPP image-dependent pair potential (`IDPP.calculate`, `neb.py:452`–`474`)

Non-periodic case (`mic=False`).  `d` is the raw distance matrix, `dd` is
computed from the raw distances, and only afterwards is the diagonal of
`d` overwritten with 1 (`d.ravel()[::len(d)+1] = 1`).
-/

/-- `D[i][j] = P[j] - P[i]` (row `i` of the loop is `P - p_i`). -/
def idppD (P : List Vec3) (i j : ℕ) : Vec3 :=
  v3sub (P.getD j v3zero) (P.getD i v3zero)

/-- Raw distance `d[i][j]`. -/
def idppDist (sq : ℚ → ℚ) (P : List Vec3) (i j : ℕ) : ℚ :=
  sq (v3normSq (idppD P i j))

/-- `dd = d - self.target`, taken from the raw distances. -/
def idppDd (sq : ℚ → ℚ) (T : List (List ℚ)) (P : List Vec3) (i j : ℕ) : ℚ :=
  idppDist sq P i j - (T.getD i []).getD j 0

/-- The distance matrix after the diagonal has been overwritten with 1. -/
def idppDhat (sq : ℚ → ℚ) (P : List Vec3) (i j : ℕ) : ℚ :=
  if i = j then 1 else idppDist sq P i j

/-- `e = 0.5 * (dd**2 / d**4).sum()`, with checked division. -/
def idppEnergy (sq : ℚ → ℚ) (T : List (List ℚ)) (P : List Vec3) : Option ℚ :=
  let n := P.length
  ((optList ((List.range n).map fun i =>
      ((optList ((List.range n).map fun j =>
          qdiv ((idppDd sq T P i j) ^ 2) ((idppDhat sq P i j) ^ 4))).map
        List.sum))).map
    fun l => (1 / 2 : ℚ) * l.sum)

/-- The scalar `dd * (1 - 2 * dd / d) / d**5` entry of `neb.py:473`, with
checked division. -/
def idppCoeff (sq : ℚ → ℚ) (T : List (List ℚ)) (P : List Vec3) (i j : ℕ) :
    Option ℚ :=
  (qdiv (2 * idppDd sq T P i j) (idppDhat sq P i j)).bind fun a =>
    qdiv (idppDd sq T P i j * (1 - a)) ((idppDhat sq P i j) ^ 5)

/-- Row `j` of `f = -2 * ((dd * (1 - 2*dd/d) / d**5)[..., None] * D).sum(0)`:
the sum runs over the first axis `i`. -/
def idppForceRow (sq : ℚ → ℚ) (T : List (List ℚ)) (P : List Vec3) (j : ℕ) :
    Option Vec3 :=
  let n := P.length
  ((optList ((List.range n).map fun i =>
      (idppCoeff sq T P i j).map fun c => v3smul c (idppD P i j))).map
    fun l => v3smul (-2) (l.foldr v3add v3zero))

/-- `IDPP.calculate` for current positions `P` and target matrix `T`:
the resulting `(energy, forces)` pair, `none` where the float arithmetic
divides by zero. -/
def idppCalculate (sq : ℚ → ℚ) (T : List (List ℚ)) (P : List Vec3) :
    Option (ℚ × List Vec3) :=
  let n := P.length
  (idppEnergy sq T P).bind fun e =>
    (optList ((List.range n).map (idppForceRow sq T P))).map fun fs => (e, fs)

/-- The energy exactly as the claim words it: `E = ½·Σ_{i,j} Δ_ij²/d_ij⁴`
with `Δ` from the raw distances and the diagonal of `d` replaced by 1. -/
def idppSpecEnergy (sq : ℚ → ℚ) (T : List (List ℚ)) (P : List Vec3) : ℚ :=
  let n := P.length
  (1 / 2 : ℚ) *
    ((List.range n).map fun i =>
      ((List.range n).map fun j =>
        (idppDd sq T P i j) ^ 2 / (idppDhat sq P i j) ^ 4).sum).sum

/-- The force exactly as the claim words it: on atom `i`,
`f_i = −2·Σ_j (Δ_ij·(1 − 2·Δ_ij/d_ij)/d_ij⁵)·D_ij` with `D_ij = p_j − p_i`
(spec §4.3). -/
def idppSpecForce (sq : ℚ → ℚ) (T : List (List ℚ)) (P : List Vec3) (i : ℕ) :
    Vec3 :=
  let n := P.length
  v3smul (-2)
    (((List.range n).map fun j =>
        v3smul (idppDd sq T P i j * (1 - 2 * idppDd sq T P i j / idppDhat sq P i j) /
            (idppDhat sq P i j) ^ 5)
          (idppD P i j)).foldr v3add v3zero)

/-!
## Preconditioned MEP (`PreconMEP`, `neb.py:785`–`1007`)

The preconditioner objects (`ase.optimize.precon`, not under `src/`) are
modelled from the spec §4.7 contract as oracle functions, and the scipy
`CubicSpline` derivative evaluations as oracle functions of the reaction
coordinate.
-/

def vaddL (a b : List ℚ) : List ℚ := List.zipWith (· + ·) a b

def vsubL (a b : List ℚ) : List ℚ := List.zipWith (· - ·) a b

def vsmulL (c : ℚ) (a : List ℚ) : List ℚ := a.map (c * ·)

def dotL (a b : List ℚ) : ℚ := (List.zipWith (· * ·) a b).sum

/-- `np.linalg.norm(v, np.inf)` for the nonnegative-maximum use here. -/
def linftyNorm (v : List ℚ) : ℚ := (v.map fun a => |a|).foldr max 0

/-- The preconditioned image-to-image distances `d_P` of
`PreconMEP.spline_fit` (`neb.py:845`–`862`): `d_P[0] = 0` and, for
`i ≥ 1`, `d_P[i] = sq(½·(P_i·(dx,dx) + P_{i-1}·(dx,dx)))` with
`dx = x_i - x_{i-1}` the flattened position difference (non-periodic
`find_mic` is the identity). -/
def dPList (sq : ℚ → ℚ) (pdot : ℕ → List ℚ → List ℚ → ℚ)
    (xs : List (List ℚ)) : List ℚ :=
  0 :: ((List.range (xs.length - 1)).map fun j =>
    let i := j + 1
    let dx := vsubL (xs.getD i []) (xs.getD (i - 1) [])
    sq ((1 / 2 : ℚ) * (pdot i dx dx + pdot (i - 1) dx dx)))

/-- `s = d_P.cumsum() / d_P.sum()` (`neb.py:864`).  The source divides in
float (`nan` when the total is zero); the theorems below only use it under
hypotheses making the total positive. -/
def splineS (sq : ℚ → ℚ) (pdot : ℕ → List ℚ → List ℚ → ℚ)
    (xs : List (List ℚ)) : List ℚ :=
  let d := dPList sq pdot xs
  (cumsum d).map (· / d.sum)

/-- One interior image of `PreconMEP.get_forces` (`neb.py:892`–`921`):
apply the preconditioner to the flattened raw force, project out the
tangent component, record the residual (before the spring term, as in the
source), and for the NEB variant add the curvature spring term; the block
is reshaped back to `(natoms, 3)`. -/
def preconImageForce (applyP : ℕ → List ℚ → List ℚ)
    (pdot : ℕ → List ℚ → List ℚ → ℚ) (pnorm : ℕ → List ℚ → ℚ)
    (pPdot : ℕ → List ℚ → List ℚ) (dxds d2xds2 : ℚ → List ℚ)
    (isNeb : Bool) (k : List ℚ) (M : ℕ) (s : List ℚ)
    (rawF : List (List Vec3)) (j : ℕ) : Option (List Vec3 × ℚ) :=
  let i := j + 1
  let fvec := flattenV (rawF.getD j [])
  let pf := applyP i fvec
  let tP0 := dxds (s.getD i 0)
  (if pnorm i tP0 = 0 then none
   else some (vsmulL (pnorm i tP0)⁻¹ tP0)).map fun tP =>
    let pf2 := vsubL pf (vsmulL (dotL tP fvec) tP)
    let res := linftyNorm (pPdot i pf2)
    let pf3 :=
      if isNeb then
        vaddL pf2
          (vsmulL ((1 / 2 : ℚ) * (k.getD j 0 + k.getD i 0) / ((M : ℚ) ^ 2) *
              pdot i (d2xds2 (s.getD i 0)) tP)
            tP)
      else pf2
    (chunk3 pf3, res)

/-- `PreconMEP.get_forces` (`neb.py:868`–`923`): the per-image blocks and
residuals over all interior images, as the `(M-2, N, 3)` force array
together with the residuals vector. -/
def preconGetForces (applyP : ℕ → List ℚ → List ℚ)
    (pdot : ℕ → List ℚ → List ℚ → ℚ) (pnorm : ℕ → List ℚ → ℚ)
    (pPdot : ℕ → List ℚ → List ℚ) (dxds d2xds2 : ℚ → List ℚ)
    (isNeb : Bool) (k : List ℚ) (M : ℕ) (s : List ℚ)
    (rawF : List (List Vec3)) : Option (List (List Vec3) × List ℚ) :=
  (optList ((List.range (M - 2)).map
      (preconImageForce applyP pdot pnorm pPdot dxds d2xds2 isNeb k M s
        rawF))).map
    fun l => (l.map Prod.fst, l.map Prod.snd)

/-- `NEB.get_forces`'s returned array `forces.reshape((-1, 3))`
(`neb.py:426`): a flat 2-D array of `(M-2)·N` rows. -/
def nebGetForcesFlat (m : NebMethod) (climb dynamicRelaxation : Bool)
    (fmax scaleFmax : ℚ) (k : List ℚ) (sq : ℚ → ℚ)
    (pos : List (List Vec3)) (energies : List ℚ)
    (rawF : List (List Vec3)) : Option (List Vec3) :=
  (nebForces m climb dynamicRelaxation fmax scaleFmax k sq pos energies
    rawF).map List.flatten

/-- `PreconMEP.force_function` (`neb.py:1004`): `set_dofs(X)`, then
`get_forces()`, then `reshape(-1)`; forces are the oracle outputs at the
updated positions. -/
def preconForceFunction (applyP : ℕ → List ℚ → List ℚ)
    (pdot : ℕ → List ℚ → List ℚ → ℚ) (pnorm : ℕ → List ℚ → ℚ)
    (pPdot : ℕ → List ℚ → List ℚ) (dxds d2xds2 : ℚ → List ℚ)
    (isNeb : Bool) (k : List ℚ) (M natoms : ℕ) (s : List ℚ)
    (rawF : List (List Vec3)) (c : List Image) (X : List ℚ) :
    List Image × Option (List ℚ) :=
  let c2 := chainSetPositions natoms c (chunk3 X)
  (c2, (preconGetForces applyP pdot pnorm pPdot dxds d2xds2 isNeb k M s
          rawF).map fun r => (r.1.map flattenV).flatten)

/-!
## Helper lemmas
-/

theorem chainChecks_ok_iff (n0 : ℕ) (p0 : List Bool) (z0 : List ℕ)
    (l : List Image) :
    chainChecks n0 p0 z0 l = .ok () ↔
      ∀ im ∈ l, im.numbers.length = n0 ∧ im.pbc = p0 ∧ im.numbers = z0 := by
  induction l with
  | nil => simp [chainChecks]
  | cons img rest ih =>
    simp only [chainChecks]
    split_ifs with h1 h2 h3 <;> simp_all

theorem chainInitE_ok_iff (images : List Image) :
    chainInitE images = .ok () ↔ chainConsistent images = true := by
  cases images with
  | nil => simp [chainInitE, chainConsistent]
  | cons i0 rest =>
    rw [chainInitE, chainChecks_ok_iff, chainConsistent]
    simp only [List.all_eq_true, Bool.and_eq_true, decide_eq_true_eq]
    constructor
    · intro h im him
      exact ⟨(h im him).2.2, (h im him).2.1⟩
    · intro h im him
      exact ⟨by rw [(h im him).1], (h im him).2, (h im him).1⟩

/-- C9: constructing a chain fails exactly when the images differ in atom
count, periodic-boundary mask, or atomic-number order, and constructing an
NEB additionally fails exactly when the method is not one of
`{aseneb, improvedtangent, eb}` or `scale_fmax` is nonzero while
`dynamic_relaxation` is false; valid, consistent inputs raise no error. -/
theorem neb_constructor_errors (images : List Image) (dyn : Bool) (scale : ℚ)
    (method : String) :
    (chainInitE images = .ok () ↔ chainConsistent images = true)
    ∧ (nebInitE images dyn scale method = .ok () ↔
        chainConsistent images = true ∧ (dyn = true ∨ scale = 0)
          ∧ method ∈ (["aseneb", "eb", "improvedtangent"] : List String)) := by
  refine ⟨chainInitE_ok_iff images, ?_⟩
  rw [nebInitE]
  cases h : chainInitE images with
  | error e =>
    have hnc : ¬ chainConsistent images = true := by
      intro hc
      rw [← chainInitE_ok_iff images] at hc
      rw [h] at hc
      exact Except.noConfusion hc
    simp [Bind.bind, Except.bind, hnc]
  | ok u =>
    cases u
    have hc : chainConsistent images = true := (chainInitE_ok_iff images).mp h
    simp only [Bind.bind, Except.bind, hc, true_and]
    cases dyn <;> split_ifs <;> simp_all

theorem insertIdx_of_not_lt (v : List ℚ) (i : ℕ) (s : List ℕ)
    (h : ∀ j ∈ s, ¬ v.getD i 0 < v.getD j 0) :
    insertIdx v i s = s ++ [i] := by
  induction s with
  | nil => rfl
  | cons j t ih =>
    simp only [insertIdx, if_neg (h j (List.mem_cons_self j t))]
    rw [ih fun j2 hj2 => h j2 (List.mem_cons_of_mem j hj2)]
    rfl

theorem foldl_insertIdx_const (v : List ℚ) (e : ℚ) :
    ∀ (l s : List ℕ), (∀ i ∈ l, v.getD i 0 = e) →
      (∀ j ∈ s, v.getD j 0 = e) →
      l.foldl (fun s2 i => insertIdx v i s2) s = s ++ l := by
  intro l
  induction l with
  | nil => intro s _ _; simp
  | cons i t ih =>
    intro s hl hs
    simp only [List.foldl_cons]
    rw [insertIdx_of_not_lt v i s fun j hj => by
      rw [hl i (List.mem_cons_self i t), hs j hj]
      exact lt_irrefl e]
    rw [ih (s ++ [i]) (fun i2 hi2 => hl i2 (List.mem_cons_of_mem i hi2))
      (by
        intro j hj
        rcases List.mem_append.mp hj with hj1 | hj2
        · exact hs j hj1
        · rw [List.mem_singleton.mp hj2]
          exact hl i (List.mem_cons_self i t))]
    simp

theorem getD_replicate_of_lt (e : ℚ) : ∀ (n i : ℕ), i < n →
    (List.replicate n e).getD i 0 = e := by
  intro n
  induction n with
  | zero => intro i hi; omega
  | succ m ih =>
    intro i hi
    cases i with
    | zero => rfl
    | succ i2 => exact ih i2 (by omega)

theorem argsortQ_replicate (n : ℕ) (e : ℚ) :
    argsortQ (List.replicate n e) = List.range n := by
  rw [argsortQ, List.length_replicate]
  rw [foldl_insertIdx_const (List.replicate n e) e (List.range n) []
    (fun i hi => getD_replicate_of_lt e n i (List.mem_range.mp hi))
    (by intro j hj; exact absurd hj (List.not_mem_nil j))]
  rfl

theorem getLastD_range_add_one (m : ℕ) : (List.range (m + 1)).getLastD 0 = m := by
  rw [List.range_succ, List.getLastD_concat]

theorem dropLast_replicate_succ (e : ℚ) :
    ∀ n, (List.replicate (n + 1) e).dropLast = List.replicate n e := by
  intro n
  induction n with
  | zero => rfl
  | succ m ih =>
    rw [List.replicate_succ, List.dropLast_cons_of_ne_nil (by simp),
      ih, ← List.replicate_succ]

/-- C2 (amended): the argmax tie-break of `imax = 1 + argsort(E[1:-1])[-1]`
goes to the *highest* interior index: with all energies equal over a chain
of `M ≥ 3` images, `imax = M - 2`, the last interior image. -/
theorem imax_all_energies_equal (M : ℕ) (e : ℚ) (hM : 3 ≤ M) :
    imaxOf (List.replicate M e) = M - 2 := by
  obtain ⟨m, rfl⟩ : ∃ m, M = m + 3 := ⟨M - 3, by omega⟩
  rw [imaxOf]
  have h1 : (List.replicate (m + 3) e).drop 1 = List.replicate (m + 2) e := by
    rw [show m + 3 = (m + 2) + 1 from rfl, List.replicate_succ]
    rfl
  rw [h1, dropLast_replicate_succ e (m + 1), argsortQ_replicate,
    getLastD_range_add_one]
  omega

/-- Witness for `imax_all_energies_equal` at `M = 4`. -/
theorem imax_all_energies_equal_witness :
    3 ≤ 4 ∧ imaxOf (List.replicate 4 (5 : ℚ)) = 4 - 2 :=
  ⟨by decide, imax_all_energies_equal 4 5 (by decide)⟩

/-- C2 is false as stated: on a 4-image chain with all interior energies
equal (a flat potential-energy surface), `NEB.get_forces` computes
`imax = 2`, the highest interior index, not `imax = 1`. -/
theorem imax_tie_counterexample :
    imaxOf [(5 : ℚ), 5, 5, 5] = 2 ∧ (2 : ℕ) ≠ 1 := by decide

/-- A single-hydrogen non-periodic image at `(x, 0, 0)`, used by the
concrete statements below. -/
def mkImg (x : ℚ) : Image :=
  { numbers := [1], pbc := [false, false, false], positions := [(x, 0, 0)] }

/-- C4: with `dynamic_relaxation` (serial), `NEB.set_positions` on any
chain with at least one interior image raises `TypeError` before moving
any image: it calls `self.get_fmax_all(self.images)` (`neb.py:231`) but
`ChainOfStates.get_fmax_all` (`neb.py:97`) accepts no argument besides
`self`.  The intended freeze-converged-images update never executes. -/
theorem nebSetPositions_dyn_raises (natoms : ℕ) (c : List Image)
    (rows : List Vec3) (hM : 3 ≤ c.length) :
    nebSetPositions true false natoms c rows = .error .typeError := by
  cases c with
  | nil => simp at hM
  | cons i0 rest =>
    have hrest : ¬ rest.length ≤ 1 := by
      simp only [List.length_cons] at hM
      omega
    simp [nebSetPositions, hrest]

/-- Witness for `nebSetPositions_dyn_raises` on a concrete 3-image chain. -/
theorem nebSetPositions_dyn_raises_witness :
    3 ≤ ([mkImg 0, mkImg 1, mkImg 2] : List Image).length ∧
      nebSetPositions true false 1 [mkImg 0, mkImg 1, mkImg 2] [(5, 0, 0)]
        = .error .typeError :=
  ⟨by decide,
   nebSetPositions_dyn_raises 1 [mkImg 0, mkImg 1, mkImg 2] [(5, 0, 0)]
     (by decide)⟩

/-- The chunk writer underlying `setInterior` once the final (untouched)
image has been split off. -/
def writeChunks (natoms : ℕ) : List Image → List Vec3 → List Image
  | [], _ => []
  | img :: rest, rows =>
    { img with positions := rows.take natoms } ::
      writeChunks natoms rest (rows.drop natoms)

theorem setInterior_eq_writeChunks (natoms : ℕ) :
    ∀ (ims : List Image) (lst : Image) (rows : List Vec3),
      setInterior natoms (ims ++ [lst]) rows
        = writeChunks natoms ims rows ++ [lst] := by
  intro ims
  induction ims with
  | nil => intro lst rows; rfl
  | cons img rest ih =>
    intro lst rows
    obtain ⟨y, t, hyt⟩ :=
      List.exists_cons_of_ne_nil (show rest ++ [lst] ≠ [] by simp)
    calc setInterior natoms ((img :: rest) ++ [lst]) rows
        = { img with positions := rows.take natoms } ::
            setInterior natoms (rest ++ [lst]) (rows.drop natoms) := by
          rw [List.cons_append, hyt]
          rfl
      _ = writeChunks natoms (img :: rest) rows ++ [lst] := by
          rw [ih lst (rows.drop natoms)]
          rfl

theorem writeChunks_positions (natoms : ℕ) :
    ∀ (ims : List Image) (rows : List Vec3),
      rows.length = natoms * ims.length →
      ((writeChunks natoms ims rows).map Image.positions).flatten = rows := by
  intro ims
  induction ims with
  | nil =>
    intro rows h
    have hr : rows = [] :=
      List.eq_nil_of_length_eq_zero (by simpa using h)
    subst hr
    rfl
  | cons img rest ih =>
    intro rows h
    simp only [writeChunks, List.map_cons, List.flatten_cons]
    rw [ih (rows.drop natoms)
      (by rw [List.length_drop, h, List.length_cons, Nat.mul_succ]
          omega)]
    exact List.take_append_drop natoms rows

theorem chunk3_length : ∀ x : List ℚ, (chunk3 x).length = x.length / 3 := by
  intro x
  match x with
  | [] => rfl
  | [a] => simp [chunk3]
  | [a, b] => simp [chunk3]
  | a :: b :: c :: t =>
    simp only [chunk3, List.length_cons, chunk3_length t]
    omega

theorem flattenV_chunk3 : ∀ x : List ℚ, x.length % 3 = 0 →
    flattenV (chunk3 x) = x := by
  intro x
  match x with
  | [] => intro _; rfl
  | [a] => intro h; simp at h
  | [a, b] => intro h; simp at h
  | a :: b :: c :: t =>
    intro h
    simp only [List.length_cons] at h
    simp only [chunk3, flattenV]
    rw [flattenV_chunk3 t (by omega)]

/-- C6 (amended): on the non-dynamic path (always taken by the base
`ChainOfStates` and by `NEB` with `dynamic_relaxation=False`),
`set_dofs` writes every interior coordinate and `get_dofs` reads them back
in order: `get_dofs ∘ set_dofs = id` on vectors of length `3·N·(M-2)`. -/
theorem getDofs_setDofs_id (parallel : Bool) (natoms : ℕ) (c : List Image)
    (x : List ℚ) (hx : x.length = 3 * natoms * (interiorOf c).length) :
    ∃ c2, nebSetDofs false parallel natoms c x = .ok c2 ∧
      chainGetDofs c2 = x := by
  cases c with
  | nil =>
    refine ⟨[], rfl, ?_⟩
    have hx0 : x = [] := by
      apply List.eq_nil_of_length_eq_zero
      simpa [interiorOf] using hx
    simp [chainGetDofs, chainGetPositions, interiorOf, hx0, flattenV]
  | cons i0 rest =>
    by_cases hr : rest.length ≤ 1
    · refine ⟨i0 :: rest, by simp [nebSetDofs, nebSetPositions, hr], ?_⟩
      have hint : interiorOf (i0 :: rest) = [] := by
        cases rest with
        | nil => rfl
        | cons r t =>
          cases t with
          | nil => rfl
          | cons r2 t2 => simp at hr
      have hx0 : x = [] := by
        apply List.eq_nil_of_length_eq_zero
        rw [hx, hint]
        rfl
      simp [chainGetDofs, chainGetPositions, hint, hx0, flattenV]
    · have hne : rest ≠ [] := by
        intro h0
        rw [h0] at hr
        simp at hr
      set ims := rest.dropLast with hims
      set lst := rest.getLast hne with hlst
      have hsplit : ims ++ [lst] = rest := List.dropLast_append_getLast hne
      have hintc : interiorOf (i0 :: rest) = ims := by
        simp [interiorOf]
      refine ⟨i0 :: setInterior natoms rest (chunk3 x),
        by simp [nebSetDofs, nebSetPositions, hr], ?_⟩
      have hrows : (chunk3 x).length = natoms * ims.length := by
        rw [chunk3_length, hx, hintc, Nat.mul_assoc]
        exact Nat.mul_div_cancel_left _ (by norm_num)
      rw [chainGetDofs, chainGetPositions]
      have hint2 : interiorOf (i0 :: setInterior natoms rest (chunk3 x))
          = writeChunks natoms ims (chunk3 x) := by
        rw [interiorOf, List.drop_one, List.tail_cons, ← hsplit,
          setInterior_eq_writeChunks]
        simp
      rw [hint2, writeChunks_positions natoms ims (chunk3 x) hrows,
        flattenV_chunk3 x
          (by rw [hx, Nat.mul_assoc]; exact Nat.mul_mod_right 3 _)]

/-- Witness for `getDofs_setDofs_id` on a concrete 3-image chain. -/
theorem getDofs_setDofs_id_witness :
    ([(7 : ℚ), 8, 9] : List ℚ).length
        = 3 * 1 * (interiorOf [mkImg 0, mkImg 1, mkImg 2]).length ∧
      ∃ c2, nebSetDofs false false 1 [mkImg 0, mkImg 1, mkImg 2] [7, 8, 9]
          = .ok c2 ∧ chainGetDofs c2 = [7, 8, 9] :=
  ⟨by decide,
   getDofs_setDofs_id false 1 [mkImg 0, mkImg 1, mkImg 2] [7, 8, 9]
     (by decide)⟩

/-- C6 is false as stated: on an NEB chain with `dynamic_relaxation=True`
the round trip does not return `x` — `set_dofs` raises `TypeError`
(through `NEB.set_positions`), so `get_dofs ∘ set_dofs` is not the
identity on every chain. -/
theorem getDofs_setDofs_counterexample :
    (nebSetDofs true false 1 [mkImg 0, mkImg 1, mkImg 2]
        [(5 : ℚ), 0, 0]).toOption.map chainGetDofs
      ≠ some [(5 : ℚ), 0, 0] := by decide

theorem setInterior_ne_nil (natoms : ℕ) (l : List Image) (rows : List Vec3)
    (h : l ≠ []) : setInterior natoms l rows ≠ [] := by
  cases l with
  | nil => exact absurd rfl h
  | cons a t => cases t <;> simp [setInterior]

theorem setInterior_getLast? (natoms : ℕ) :
    ∀ (l : List Image) (rows : List Vec3),
      (setInterior natoms l rows).getLast? = l.getLast? := by
  intro l
  induction l with
  | nil => intro rows; rfl
  | cons a t ih =>
    intro rows
    cases t with
    | nil => rfl
    | cons b t2 =>
      obtain ⟨y, ys, hy⟩ := List.exists_cons_of_ne_nil
        (setInterior_ne_nil natoms (b :: t2) (rows.drop natoms) (by simp))
      calc (setInterior natoms (a :: b :: t2) rows).getLast?
          = ({ a with positions := rows.take natoms } ::
              setInterior natoms (b :: t2) (rows.drop natoms)).getLast? := rfl
        _ = (setInterior natoms (b :: t2) (rows.drop natoms)).getLast? := by
            rw [hy, List.getLast?_cons_cons]
        _ = (b :: t2).getLast? := ih (rows.drop natoms)
        _ = (a :: b :: t2).getLast? := (List.getLast?_cons_cons).symm

/-- C1 (amended): without `remove_rotation_and_translation`, `get_forces`
leaves every image position (in particular the endpoints) bit-identical,
and any successful `set_positions` preserves the endpoint images 0 and
M-1.  (With `remove_rotation_and_translation`, `get_forces` re-aligns
every image `i ≥ 1` — including the final endpoint — against its
predecessor; see the counterexample.) -/
theorem endpoints_fixed (align : Image → Image → Image) (m : NebMethod)
    (climb dynR : Bool) (fmax scale : ℚ) (k : List ℚ) (sq : ℚ → ℚ)
    (c : List Image) (energies : List ℚ) (rawF : List (List Vec3))
    (dynP parallel : Bool) (natoms : ℕ) (P : List Vec3) :
    (nebGetForcesRun align false m climb dynR fmax scale k sq c energies
        rawF).1 = c
    ∧ (∀ c2, nebSetPositions dynP parallel natoms c P = .ok c2 →
        c2.head? = c.head? ∧ c2.getLast? = c.getLast?) := by
  constructor
  · rfl
  · intro c2 h
    cases c with
    | nil =>
      rw [nebSetPositions] at h
      cases h
      exact ⟨rfl, rfl⟩
    | cons i0 rest =>
      rw [nebSetPositions] at h
      by_cases hr : rest.length ≤ 1
      · rw [if_pos hr] at h
        cases h
        exact ⟨rfl, rfl⟩
      · rw [if_neg hr] at h
        cases hdyn : dynP with
        | true =>
          rw [hdyn] at h
          cases hpar : parallel with
          | true => rw [hpar] at h; simp at h
          | false => rw [hpar] at h; simp at h
        | false =>
          rw [hdyn] at h
          simp only [Bool.false_eq_true, if_false] at h
          cases h
          have hne : rest ≠ [] := by
            intro h0
            rw [h0] at hr
            simp at hr
          constructor
          · rfl
          · obtain ⟨b, t2, hbt⟩ := List.exists_cons_of_ne_nil hne
            calc (i0 :: setInterior natoms rest P).getLast?
                = (setInterior natoms rest P).getLast? := by
                  obtain ⟨y2, ys2, hy2⟩ := List.exists_cons_of_ne_nil
                    (setInterior_ne_nil natoms rest P hne)
                  rw [hy2, List.getLast?_cons_cons]
              _ = rest.getLast? := setInterior_getLast? natoms rest P
              _ = (i0 :: rest).getLast? := by
                  rw [hbt, List.getLast?_cons_cons]

/-- A square-root oracle table, exact on every radicand produced by the
concrete chains below (all perfect squares). -/
def sqTab (q : ℚ) : ℚ :=
  if q = 0 then 0
  else if q = 1 then 1
  else if q = 4 then 2
  else if q = 9 then 3
  else if q = 1 / 100 then 1 / 10
  else 0

/-- The concrete 3-image single-atom chain used for C1. -/
def chainC1 : List Image := [mkImg 0, mkImg 1, mkImg 2]

/-- Witness for `endpoints_fixed`: concrete `get_forces` without
re-alignment leaves the chain untouched, and a concrete successful
`set_positions` keeps both endpoints. -/
theorem endpoints_fixed_witness :
    (nebGetForcesRun alignTranslate false .aseneb false false 1 0 [1, 1]
        sqTab chainC1 [0, 0, 0] [[(0, 0, 0)]]).1 = chainC1
    ∧ ([mkImg 0, mkImg 9, mkImg 2] : List Image).head? = chainC1.head?
    ∧ ([mkImg 0, mkImg 9, mkImg 2] : List Image).getLast?
        = chainC1.getLast? :=
  ⟨(endpoints_fixed alignTranslate .aseneb false false 1 0 [1, 1] sqTab
      chainC1 [0, 0, 0] [[(0, 0, 0)]] false false 1 [(9, 0, 0)]).1,
   (endpoints_fixed alignTranslate .aseneb false false 1 0 [1, 1] sqTab
      chainC1 [0, 0, 0] [[(0, 0, 0)]] false false 1 [(9, 0, 0)]).2
     [mkImg 0, mkImg 9, mkImg 2]
     (by norm_num [nebSetPositions, setInterior, chainC1, mkImg])⟩

/-- C1 is false as stated: with `remove_rotation_and_translation=True`,
`NEB.get_forces` re-aligns every image `i ≥ 1` against image `i-1`
(`neb.py:261`–`263`), including the final endpoint, whose positions change
on this concrete chain (single-atom images, where the spec's RMSD-minimal
alignment is an exact translation onto the reference). -/
theorem endpoints_counterexample :
    (nebGetForcesRun alignTranslate true .aseneb false false 1 0 [1, 1]
        sqTab chainC1 [0, 0, 0] [[(0, 0, 0)]]).1.getLast?
      ≠ chainC1.getLast? := by
  norm_num [nebGetForcesRun, nebAlignAll, alignPass, alignTranslate,
    centroid, chainC1, mkImg, v3add, v3sub, v3smul, Image.mk.injEq,
    Prod.ext_iff]

theorem applyDyn_getD (cond : ℕ → List Vec3 → Bool) (imax : ℕ) :
    ∀ (fs : List (List Vec3)) (j0 n : ℕ), n < fs.length →
      (applyDyn cond imax j0 fs).getD n []
        = (if cond (j0 + n + 1) (fs.getD n []) ∧ j0 + n + 1 ≠ imax
           then (fs.getD n []).map fun _ => v3zero
           else fs.getD n []) := by
  intro fs
  induction fs with
  | nil => intro j0 n h; simp at h
  | cons fj rest ih =>
    intro j0 n h
    cases n with
    | zero => simp [applyDyn]
    | succ n2 =>
      have h2 : n2 < rest.length := by
        simpa using h
      have hrec := ih (j0 + 1) n2 h2
      have harith : j0 + 1 + n2 + 1 = j0 + (n2 + 1) + 1 := by omega
      calc (applyDyn cond imax j0 (fj :: rest)).getD (n2 + 1) []
          = (applyDyn cond imax (j0 + 1) rest).getD n2 [] := rfl
        _ = _ := by rw [hrec, harith]; rfl

/-- C3 (amended): under dynamic relaxation, if every interior image's
per-atom maximum (projected) force norm is below its tolerance
`fmax·(1 + rel·scale_fmax)`, then `NEB.get_forces` zeroes the force block
of every interior image *except* the highest-energy image `imax`, whose
projected force is returned unmodified (`neb.py:420`–`424` skips
`k == imax - 1`); the result is not the all-zero array unless the `imax`
block was already zero. -/
theorem dyn_below_tolerance_zeroes_except_imax (m : NebMethod)
    (climb : Bool) (fmax scale : ℚ) (k : List ℚ) (sq : ℚ → ℚ)
    (pos : List (List Vec3)) (energies : List ℚ) (rawF : List (List Vec3))
    (fs F : List (List Vec3))
    (hfs : optList ((List.range (pos.length - 2)).map
        (fun j => imageForce m climb k sq pos energies rawF
          (imaxOf energies) (j + 1))) = some fs)
    (hF : nebForces m climb true fmax scale k sq pos energies rawF = some F)
    (hcond : ∀ j, j < fs.length →
      dynCond sq fmax scale pos (imaxOf energies) (j + 1) (fs.getD j [])
        = true) :
    ∀ j, j < fs.length →
      (j + 1 ≠ imaxOf energies →
        F.getD j [] = (fs.getD j []).map fun _ => v3zero)
      ∧ (j + 1 = imaxOf energies → F.getD j [] = fs.getD j []) := by
  have hF2 : nebForces m climb true fmax scale k sq pos energies rawF
      = some (applyDyn (dynCond sq fmax scale pos (imaxOf energies))
          (imaxOf energies) 0 fs) := by
    simp [nebForces, hfs]
  have hFeq : F = applyDyn (dynCond sq fmax scale pos (imaxOf energies))
      (imaxOf energies) 0 fs := by
    rw [hF2] at hF
    exact (Option.some.injEq _ _ ▸ hF).symm
  intro j hj
  have hget := applyDyn_getD (dynCond sq fmax scale pos (imaxOf energies))
    (imaxOf energies) fs 0 j hj
  rw [Nat.zero_add] at hget
  constructor
  · intro hne
    rw [hFeq, hget, if_pos ⟨hcond j hj, hne⟩]
  · intro heq
    rw [hFeq, hget, if_neg (fun hand => hand.2 heq)]

/-- C3 is false as stated: on this concrete 3-image chain (one interior
image, necessarily `imax`) the dynamic-relaxation test passes for every
interior image, yet `get_forces` does not return the all-zero array — the
`imax` block keeps its nonzero projected force, because `neb.py:421` skips
zeroing `k == imax - 1`. -/
theorem dyn_all_below_counterexample :
    dynCond sqTab 2 0 [[(0, 0, 0)], [(1, 0, 0)], [(3, 0, 0)]] 1 1
        [((1 : ℚ), 0, 0)] = true
    ∧ nebForces .aseneb false true 2 0 [1, 1] sqTab
        [[(0, 0, 0)], [(1, 0, 0)], [(3, 0, 0)]] [0, 0, 0] [[(1 / 10, 0, 0)]]
      = some [[((1 : ℚ), 0, 0)]] := by
  constructor
  · norm_num [dynCond, rowMaxNorm, sqTab, aSub, aNormSq, aDot, v3normSq,
      v3dot, v3sub, max_def]
  · have him : imaxOf [(0 : ℚ), 0, 0] = 1 := by decide
    have hrange : List.range ((3 : ℕ) - 2) = [0] := rfl
    norm_num [nebForces, hrange, him, imageForce, optList, applyDyn,
      dynCond, rowMaxNorm, qdiv, aDivs, aSub, aAdd, aSmul, aDot, aNormSq,
      v3sub, v3add, v3smul, v3dot, v3normSq, v3zero, sqTab]

/-- Witness for `dyn_below_tolerance_zeroes_except_imax` on a concrete
4-image chain: every interior block is below tolerance, the non-`imax`
block is zeroed. -/
theorem dyn_below_tolerance_witness :
    ([[((0 : ℚ), 0, 0)], [(0, 0, 0)]] : List (List Vec3)).getD 0 []
      = (([[((0 : ℚ), 1 / 10, 0)], [(0, 0, 0)]] :
          List (List Vec3)).getD 0 []).map (fun _ => v3zero) :=
  (dyn_below_tolerance_zeroes_except_imax .aseneb false 2 0 [1, 1, 1] sqTab
    [[(0, 0, 0)], [(1, 0, 0)], [(2, 0, 0)], [(3, 0, 0)]] [0, 0, 0, 0]
    [[(1 / 10, 1 / 10, 0)], [(1 / 10, 0, 0)]]
    [[(0, 1 / 10, 0)], [(0, 0, 0)]] [[(0, 0, 0)], [(0, 0, 0)]]
    (by
      have him : imaxOf [(0 : ℚ), 0, 0, 0] = 2 := by decide
      have hrange : List.range ((4 : ℕ) - 2) = [0, 1] := rfl
      norm_num [hrange, him, imageForce, optList, qdiv, aDivs, aSub, aAdd,
        aSmul, aDot, aNormSq, v3sub, v3add, v3smul, v3dot, v3normSq,
        v3zero, sqTab])
    (by
      have him : imaxOf [(0 : ℚ), 0, 0, 0] = 2 := by decide
      have hrange : List.range ((4 : ℕ) - 2) = [0, 1] := rfl
      norm_num [nebForces, hrange, him, imageForce, optList, applyDyn,
        dynCond, rowMaxNorm, qdiv, aDivs, aSub, aAdd, aSmul, aDot, aNormSq,
        v3sub, v3add, v3smul, v3dot, v3normSq, v3zero, sqTab, max_def])
    (by
      intro j hj
      have hj2 : j < 2 := by simpa using hj
      interval_cases j <;>
        norm_num [dynCond, rowMaxNorm, sqTab, aSub, aNormSq, aDot,
          v3normSq, v3dot, v3sub, max_def]
    ) 0 (by norm_num)).1 (by decide)

theorem optionBind_none {α β : Type} (x : Option α) (f : α → Option β)
    (h : ∀ a, f a = none) : x.bind f = none := by
  cases x with
  | none => rfl
  | some a => exact h a

/-- C5 (amended): in the *eb* method with climbing, the climber-neighbor
spring scaling `(f1 + f2) * deltavmin / deltavmax` (`neb.py:390`) is an
unguarded division: on a perfectly flat energy triplet (`ΔV_max = 0`) the
source divides 0 by 0 (`nan` in float), modelled here as `none`; the
quotient is *not* taken to be 0. -/
theorem eb_flat_triplet_divides_by_zero (k : List ℚ) (sq : ℚ → ℚ)
    (pos : List (List Vec3)) (energies : List ℚ) (rawF : List (List Vec3))
    (imax i : ℕ)
    (hnb : ((i : ℤ) - (imax : ℤ)).natAbs = 1)
    (hflat : max |energies.getD (i + 1) 0 - energies.getD i 0|
        |energies.getD (i - 1) 0 - energies.getD i 0| = 0) :
    imageForce .eb true k sq pos energies rawF imax i = none := by
  have hne : ¬ (i = imax) := by
    intro h
    rw [h] at hnb
    simp at hnb
  simp only [imageForce]
  apply optionBind_none
  intro u1
  apply optionBind_none
  intro u2
  apply optionBind_none
  intro tangent
  rw [if_neg (fun hand => hne hand.2)]
  apply optionBind_none
  intro f1
  apply optionBind_none
  intro f2
  rw [if_pos ⟨trivial, hnb⟩, hflat]
  rfl

/-- Witness for `eb_flat_triplet_divides_by_zero`: a concrete flat 4-image
chain where image 1 is a climber-neighbor of `imax = 2`. -/
theorem eb_flat_triplet_witness :
    ((1 : ℤ) - (2 : ℤ)).natAbs = 1
    ∧ imageForce .eb true [1, 1, 1] sqTab
        [[(0, 0, 0)], [(1, 0, 0)], [(2, 0, 0)], [(3, 0, 0)]]
        [0, 0, 0, 0] [[(0, 0, 0)], [(0, 0, 0)]] 2 1 = none :=
  ⟨by decide,
   eb_flat_triplet_divides_by_zero [1, 1, 1] sqTab
     [[(0, 0, 0)], [(1, 0, 0)], [(2, 0, 0)], [(3, 0, 0)]]
     [0, 0, 0, 0] [[(0, 0, 0)], [(0, 0, 0)]] 2 1 (by decide)
     (by norm_num [max_def])⟩

/-- C5 is false as stated: on a concrete flat chain (eb, climb) the whole
force evaluation divides by zero (`none`), instead of treating
`ΔV_min/ΔV_max` as 0 and returning a force array. -/
theorem eb_flat_counterexample :
    nebForces .eb true false 0 0 [1, 1, 1] sqTab
        [[(0, 0, 0)], [(1, 0, 0)], [(2, 0, 0)], [(3, 0, 0)]]
        [0, 0, 0, 0] [[(0, 0, 0)], [(0, 0, 0)]] = none := by
  have him : imaxOf [(0 : ℚ), 0, 0, 0] = 2 := by decide
  have hrange : List.range ((4 : ℕ) - 2) = [0, 1] := rfl
  norm_num [nebForces, hrange, him, imageForce, optList, qdiv, aDivs, aSub,
    aAdd, aSmul, aDot, aNormSq, v3sub, v3add, v3smul, v3dot, v3normSq,
    v3zero, sqTab, max_def, min_def]

theorem cumsumAux_getLast? : ∀ (l : List ℚ) (acc : ℚ), l ≠ [] →
    (cumsumAux acc l).getLast? = some (acc + l.sum) := by
  intro l
  induction l with
  | nil => intro acc h; exact absurd rfl h
  | cons a t ih =>
    intro acc _
    cases t with
    | nil => simp [cumsumAux]
    | cons b t2 =>
      calc (cumsumAux acc (a :: b :: t2)).getLast?
          = (cumsumAux (acc + a) (b :: t2)).getLast? := by
            rw [show cumsumAux acc (a :: b :: t2)
                = (acc + a) :: (acc + a + b) :: cumsumAux (acc + a + b) t2
              from rfl, List.getLast?_cons_cons]
            rfl
        _ = some (acc + a + (b :: t2).sum) := ih (acc + a) (by simp)
        _ = some (acc + (a :: b :: t2).sum) := by
            rw [show acc + a + (b :: t2).sum = acc + (a :: b :: t2).sum from by
              simp only [List.sum_cons]
              ring]

theorem cumsumAux_pos_chain : ∀ (l : List ℚ) (acc : ℚ),
    (∀ a ∈ l, 0 < a) →
    List.Chain' (· < ·) (cumsumAux acc l)
      ∧ ∀ b ∈ cumsumAux acc l, acc < b := by
  intro l
  induction l with
  | nil => intro acc _; exact ⟨List.chain'_nil, by simp [cumsumAux]⟩
  | cons a t ih =>
    intro acc h
    have h0 : 0 < a := h a (List.mem_cons_self a t)
    obtain ⟨ch, hall⟩ :=
      ih (acc + a) (fun x hx => h x (List.mem_cons_of_mem a hx))
    have hacc : acc < acc + a := lt_add_of_pos_right acc h0
    constructor
    · rw [show cumsumAux acc (a :: t)
          = (acc + a) :: cumsumAux (acc + a) t from rfl, List.chain'_cons']
      exact ⟨fun y hy => hall y (List.mem_of_mem_head? hy), ch⟩
    · intro b hb
      rw [show cumsumAux acc (a :: t)
          = (acc + a) :: cumsumAux (acc + a) t from rfl] at hb
      rcases List.mem_cons.mp hb with hb1 | hb2
      · rw [hb1]; exact hacc
      · exact lt_trans hacc (hall b hb2)

theorem vsubL_exists_ne : ∀ (a b : List ℚ), a.length = b.length → a ≠ b →
    ∃ q ∈ vsubL a b, q ≠ 0 := by
  intro a
  induction a with
  | nil =>
    intro b hl hne
    cases b with
    | nil => exact absurd rfl hne
    | cons y s => simp at hl
  | cons x t ih =>
    intro b hl hne
    cases b with
    | nil => simp at hl
    | cons y s =>
      by_cases hxy : x = y
      · have hts : t ≠ s := by
          intro h
          exact hne (by rw [hxy, h])
        obtain ⟨q, hq, hq0⟩ := ih s (by simpa using hl) hts
        exact ⟨q, by
          rw [show vsubL (x :: t) (y :: s) = (x - y) :: vsubL t s from rfl]
          exact List.mem_cons_of_mem _ hq, hq0⟩
      · refine ⟨x - y, ?_, sub_ne_zero.mpr hxy⟩
        rw [show vsubL (x :: t) (y :: s) = (x - y) :: vsubL t s from rfl]
        exact List.mem_cons_self _ _

theorem dotL_self_nonneg (v : List ℚ) : 0 ≤ dotL v v := by
  induction v with
  | nil => simp [dotL]
  | cons a t ih =>
    rw [show dotL (a :: t) (a :: t) = a * a + dotL t t from by
      simp [dotL, List.zipWith_cons_cons]]
    have := mul_self_nonneg a
    linarith

theorem dotL_self_pos (v : List ℚ) (h : ∃ q ∈ v, q ≠ 0) : 0 < dotL v v := by
  induction v with
  | nil => simp at h
  | cons a t ih =>
    rw [show dotL (a :: t) (a :: t) = a * a + dotL t t from by
      simp [dotL, List.zipWith_cons_cons]]
    obtain ⟨q, hq, hq0⟩ := h
    rcases List.mem_cons.mp hq with h1 | h2
    · have h3 : 0 < a * a := by
        rw [← h1]
        exact mul_self_pos.mpr hq0
      have := dotL_self_nonneg t
      linarith
    · have h3 := ih ⟨q, h2, hq0⟩
      have := mul_self_nonneg a
      linarith

/-- C7: `PreconMEP.spline_fit` returns a reaction coordinate with
`s[0] = 0`, `s[M-1] = 1`, strictly increasing, whenever every pair of
consecutive images has differing positions (with a positive-definite
preconditioner inner product and a square root positive on positive
arguments, per the spec §4.7 contract). -/
theorem splineS_proper (sq : ℚ → ℚ) (pdot : ℕ → List ℚ → List ℚ → ℚ)
    (xs : List (List ℚ)) (hM : 2 ≤ xs.length)
    (hlen : ∀ j, j + 1 < xs.length →
      (xs.getD (j + 1) []).length = (xs.getD j []).length)
    (hdiff : ∀ j, j + 1 < xs.length → xs.getD (j + 1) [] ≠ xs.getD j [])
    (hpd : ∀ i v, (∃ q ∈ v, q ≠ 0) → 0 < pdot i v v)
    (hsq : ∀ q, 0 < q → 0 < sq q) :
    (splineS sq pdot xs).head? = some 0
    ∧ (splineS sq pdot xs).getLast? = some 1
    ∧ List.Chain' (· < ·) (splineS sq pdot xs) := by
  set rest := (List.range (xs.length - 1)).map
    (fun j =>
      sq ((1 / 2 : ℚ) *
        (pdot (j + 1) (vsubL (xs.getD (j + 1) []) (xs.getD (j + 1 - 1) []))
            (vsubL (xs.getD (j + 1) []) (xs.getD (j + 1 - 1) []))
          + pdot (j + 1 - 1)
              (vsubL (xs.getD (j + 1) []) (xs.getD (j + 1 - 1) []))
              (vsubL (xs.getD (j + 1) []) (xs.getD (j + 1 - 1) []))))) with hrest
  have hd : dPList sq pdot xs = 0 :: rest := rfl
  have hpos : ∀ a ∈ rest, 0 < a := by
    intro a ha
    rw [hrest] at ha
    obtain ⟨j, hjr, hja⟩ := List.mem_map.mp ha
    have hjlt : j + 1 < xs.length := by
      have := List.mem_range.mp hjr
      omega
    have hdx : ∃ q ∈ vsubL (xs.getD (j + 1) []) (xs.getD (j + 1 - 1) []),
        q ≠ 0 := by
      rw [show j + 1 - 1 = j from rfl]
      exact vsubL_exists_ne _ _ (hlen j hjlt) (hdiff j hjlt)
    have h1 := hpd (j + 1) _ hdx
    have h2 := hpd (j + 1 - 1) _ hdx
    rw [← hja]
    apply hsq
    linarith
  have hrne : rest ≠ [] := by
    apply List.ne_nil_of_length_pos
    rw [hrest, List.length_map, List.length_range]
    omega
  have htot : 0 < (dPList sq pdot xs).sum := by
    rw [hd, List.sum_cons, zero_add]
    exact List.sum_pos rest hpos hrne
  have hsplineS : splineS sq pdot xs
      = (cumsum (dPList sq pdot xs)).map
          (· / (dPList sq pdot xs).sum) := rfl
  have hcum : cumsum (dPList sq pdot xs)
      = (0 + 0) :: cumsumAux (0 + 0) rest := by
    rw [hd]
    rfl
  obtain ⟨chn, hall⟩ := cumsumAux_pos_chain rest (0 + 0) hpos
  refine ⟨?_, ?_, ?_⟩
  · rw [hsplineS, List.head?_map, hcum]
    simp
  · rw [hsplineS, List.getLast?_map,
      show cumsum (dPList sq pdot xs)
        = cumsumAux 0 (dPList sq pdot xs) from rfl,
      cumsumAux_getLast? (dPList sq pdot xs) 0 (by rw [hd]; simp)]
    rw [Option.map_some']
    rw [zero_add, div_self (ne_of_gt htot)]
  · rw [hsplineS, List.chain'_map]
    apply List.Chain'.imp
      (fun a b hab => (div_lt_div_iff_of_pos_right htot).mpr hab)
    rw [hcum, List.chain'_cons']
    exact ⟨fun y hy => hall y (List.mem_of_mem_head? hy), chn⟩

/-- Witness for `splineS_proper` on a concrete 2-image chain with the
Euclidean inner product as preconditioner and the identity square-root
oracle. -/
theorem splineS_proper_witness :
    (splineS id (fun _ u v => dotL u v)
        [[0, 0, 0], [1, 0, 0]]).head? = some 0
    ∧ (splineS id (fun _ u v => dotL u v)
        [[0, 0, 0], [1, 0, 0]]).getLast? = some 1
    ∧ List.Chain' (· < ·)
        (splineS id (fun _ u v => dotL u v) [[0, 0, 0], [1, 0, 0]]) :=
  splineS_proper id (fun _ u v => dotL u v) [[0, 0, 0], [1, 0, 0]]
    (by norm_num)
    (by
      intro j hj
      have hj0 : j = 0 := by
        simp only [List.length_cons, List.length_nil] at hj
        omega
      subst hj0
      norm_num)
    (by
      intro j hj
      have hj0 : j = 0 := by
        simp only [List.length_cons, List.length_nil] at hj
        omega
      subst hj0
      decide)
    (fun _ v hv => dotL_self_pos v hv)
    (fun _ h => h)

theorem optList_map_some {α β : Type} (f : α → Option β) (g : α → β) :
    ∀ l : List α, (∀ x ∈ l, f x = some (g x)) →
      optList (l.map f) = some (l.map g) := by
  intro l
  induction l with
  | nil => intro _; rfl
  | cons x t ih =>
    intro h
    rw [List.map_cons, List.map_cons,
      show optList (f x :: t.map f)
        = (f x).bind fun a => (optList (t.map f)).map fun l2 => a :: l2
        from rfl,
      h x (List.mem_cons_self x t), ih (fun y hy => h y (List.mem_cons_of_mem x hy))]
    rfl

theorem v3sub_antisymm (a b : Vec3) : v3sub a b = v3smul (-1) (v3sub b a) := by
  simp only [v3sub, v3smul, Prod.ext_iff]
  exact ⟨by ring, by ring, by ring⟩

theorem v3smul_v3smul (a b : ℚ) (x : Vec3) :
    v3smul a (v3smul b x) = v3smul (a * b) x := by
  simp only [v3smul, Prod.ext_iff]
  exact ⟨by ring, by ring, by ring⟩

theorem v3add_smul_neg (x y : Vec3) :
    v3add (v3smul (-1) x) (v3smul (-1) y) = v3smul (-1) (v3add x y) := by
  simp only [v3add, v3smul, Prod.ext_iff]
  exact ⟨by ring, by ring, by ring⟩

theorem foldr_v3add_neg : ∀ l : List Vec3,
    (l.map (v3smul (-1))).foldr v3add v3zero
      = v3smul (-1) (l.foldr v3add v3zero) := by
  intro l
  induction l with
  | nil =>
    simp only [List.map_nil, List.foldr_nil, v3smul, v3zero, Prod.ext_iff]
    exact ⟨by ring, by ring, by ring⟩
  | cons x t ih =>
    simp only [List.map_cons, List.foldr_cons, ih, v3add_smul_neg]

theorem v3normSq_sub_comm (a b : Vec3) :
    v3normSq (v3sub a b) = v3normSq (v3sub b a) := by
  simp only [v3normSq, v3dot, v3sub]
  ring

theorem idppDist_comm (sq : ℚ → ℚ) (P : List Vec3) (i j : ℕ) :
    idppDist sq P i j = idppDist sq P j i := by
  rw [idppDist, idppDist, idppD, idppD, v3normSq_sub_comm]

theorem idppDhat_comm (sq : ℚ → ℚ) (P : List Vec3) (i j : ℕ) :
    idppDhat sq P i j = idppDhat sq P j i := by
  rw [idppDhat, idppDhat, idppDist_comm]
  by_cases h : i = j
  · rw [if_pos h, if_pos h.symm]
  · rw [if_neg h, if_neg (fun h2 => h h2.symm)]

theorem idppDhat_ne_zero (sq : ℚ → ℚ) (P : List Vec3) (i j : ℕ)
    (hne : ∀ i2, i2 < P.length → ∀ j2, j2 < P.length → i2 ≠ j2 →
      idppDist sq P i2 j2 ≠ 0)
    (hi : i < P.length) (hj : j < P.length) : idppDhat sq P i j ≠ 0 := by
  rw [idppDhat]
  by_cases h : i = j
  · rw [if_pos h]; norm_num
  · rw [if_neg h]; exact hne i hi j hj h

theorem idppCoeff_eq (sq : ℚ → ℚ) (T : List (List ℚ)) (P : List Vec3)
    (i j : ℕ) (h : idppDhat sq P i j ≠ 0) :
    idppCoeff sq T P i j
      = some (idppDd sq T P i j *
          (1 - 2 * idppDd sq T P i j / idppDhat sq P i j) /
          (idppDhat sq P i j) ^ 5) := by
  rw [idppCoeff, qdiv, if_neg h]
  rw [show ((some (2 * idppDd sq T P i j / idppDhat sq P i j)).bind fun a =>
      qdiv (idppDd sq T P i j * (1 - a)) ((idppDhat sq P i j) ^ 5))
    = qdiv (idppDd sq T P i j *
        (1 - 2 * idppDd sq T P i j / idppDhat sq P i j))
        ((idppDhat sq P i j) ^ 5) from rfl]
  rw [qdiv, if_neg (pow_ne_zero 5 h)]

theorem idppDd_comm (sq : ℚ → ℚ) (T : List (List ℚ)) (P : List Vec3)
    (hT : ∀ i j, (T.getD i []).getD j 0 = (T.getD j []).getD i 0)
    (i j : ℕ) : idppDd sq T P i j = idppDd sq T P j i := by
  rw [idppDd, idppDd, idppDist_comm, hT]

theorem idppEnergy_eq (sq : ℚ → ℚ) (T : List (List ℚ)) (P : List Vec3)
    (hne : ∀ i, i < P.length → ∀ j, j < P.length → i ≠ j →
      idppDist sq P i j ≠ 0) :
    idppEnergy sq T P = some (idppSpecEnergy sq T P) := by
  simp only [idppEnergy, idppSpecEnergy]
  rw [optList_map_some
    (fun i => (optList ((List.range P.length).map fun j =>
        qdiv ((idppDd sq T P i j) ^ 2) ((idppDhat sq P i j) ^ 4))).map
      List.sum)
    (fun i => ((List.range P.length).map fun j =>
        (idppDd sq T P i j) ^ 2 / (idppDhat sq P i j) ^ 4).sum)
    (List.range P.length)
    (by
      intro i hi
      dsimp only
      rw [optList_map_some
        (fun j => qdiv ((idppDd sq T P i j) ^ 2) ((idppDhat sq P i j) ^ 4))
        (fun j => (idppDd sq T P i j) ^ 2 / (idppDhat sq P i j) ^ 4)
        (List.range P.length)
        (by
          intro j hj
          dsimp only
          rw [qdiv, if_neg (pow_ne_zero 4 (idppDhat_ne_zero sq P i j hne
            (List.mem_range.mp hi) (List.mem_range.mp hj)))])]
      rfl)]
  rfl

theorem idppForceRow_eq (sq : ℚ → ℚ) (T : List (List ℚ)) (P : List Vec3)
    (hne : ∀ i, i < P.length → ∀ j, j < P.length → i ≠ j →
      idppDist sq P i j ≠ 0)
    (hT : ∀ i j, (T.getD i []).getD j 0 = (T.getD j []).getD i 0)
    (j : ℕ) (hj : j < P.length) :
    idppForceRow sq T P j = some (v3smul (-1) (idppSpecForce sq T P j)) := by
  simp only [idppForceRow, idppSpecForce]
  rw [optList_map_some
    (fun i => (idppCoeff sq T P i j).map fun c => v3smul c (idppD P i j))
    (fun i => v3smul (idppDd sq T P i j *
        (1 - 2 * idppDd sq T P i j / idppDhat sq P i j) /
        (idppDhat sq P i j) ^ 5) (idppD P i j))
    (List.range P.length)
    (by
      intro i hi
      dsimp only
      rw [idppCoeff_eq sq T P i j (idppDhat_ne_zero sq P i j hne
        (List.mem_range.mp hi) hj)]
      rfl)]
  have hswap : (List.range P.length).map
      (fun i => v3smul (idppDd sq T P i j *
          (1 - 2 * idppDd sq T P i j / idppDhat sq P i j) /
          (idppDhat sq P i j) ^ 5) (idppD P i j))
      = ((List.range P.length).map
          (fun i => v3smul (idppDd sq T P j i *
            (1 - 2 * idppDd sq T P j i / idppDhat sq P j i) /
            (idppDhat sq P j i) ^ 5) (idppD P j i))).map (v3smul (-1)) := by
    rw [List.map_map]
    apply List.map_congr_left
    intro i _
    simp only [Function.comp]
    rw [idppDd_comm sq T P hT i j, idppDhat_comm sq P i j,
      show idppD P i j = v3smul (-1) (idppD P j i) from by
        rw [idppD, idppD]; exact v3sub_antisymm _ _,
      v3smul_v3smul, v3smul_v3smul]
    rw [mul_comm _ (-1 : ℚ)]
  rw [hswap]
  simp only [Option.map_some']
  rw [foldr_v3add_neg, v3smul_v3smul]
  rw [show (-2 : ℚ) * -1 = (-1) * -2 from by ring, ← v3smul_v3smul]

/-- C8 (amended): with pairwise-distinct atoms (so no division by zero) and
a symmetric target matrix, `IDPP.calculate` returns exactly the claimed
energy `½·Σ Δ²/d⁴`, but the force on each atom is the *negative* of the
claimed formula: `f_i = +2·Σ_j (Δ_ij·(1 − 2Δ_ij/d_ij)/d_ij⁵)·D_ij`
with `D_ij = p_j − p_i`. -/
theorem idpp_energy_forces (sq : ℚ → ℚ) (T : List (List ℚ)) (P : List Vec3)
    (hne : ∀ i, i < P.length → ∀ j, j < P.length → i ≠ j →
      idppDist sq P i j ≠ 0)
    (hT : ∀ i j, (T.getD i []).getD j 0 = (T.getD j []).getD i 0) :
    idppCalculate sq T P
      = some (idppSpecEnergy sq T P,
          (List.range P.length).map fun i =>
            v3smul (-1) (idppSpecForce sq T P i)) := by
  simp only [idppCalculate]
  rw [idppEnergy_eq sq T P hne]
  rw [optList_map_some (idppForceRow sq T P)
    (fun i => v3smul (-1) (idppSpecForce sq T P i)) (List.range P.length)
    (fun j hj => idppForceRow_eq sq T P hne hT j (List.mem_range.mp hj))]
  rfl

/-- Witness for `idpp_energy_forces` on a concrete two-atom configuration
with the zero target matrix. -/
theorem idpp_energy_forces_witness :
    idppCalculate sqTab [[0, 0], [0, 0]] [(0, 0, 0), (1, 0, 0)]
      = some (idppSpecEnergy sqTab [[0, 0], [0, 0]] [(0, 0, 0), (1, 0, 0)],
          (List.range ([((0 : ℚ), 0, 0), (1, 0, 0)] : List Vec3).length).map
            fun i => v3smul (-1)
              (idppSpecForce sqTab [[0, 0], [0, 0]]
                [(0, 0, 0), (1, 0, 0)] i)) :=
  idpp_energy_forces sqTab [[0, 0], [0, 0]] [(0, 0, 0), (1, 0, 0)]
    (by
      intro i hi j hj hij
      simp only [List.length_cons, List.length_nil] at hi hj
      interval_cases i <;> interval_cases j <;>
        first
          | exact absurd rfl hij
          | norm_num [idppDist, idppD, v3normSq, v3dot, v3sub, sqTab])
    (by
      intro i j
      have hz : ∀ a b : ℕ,
          ((([[0, 0], [0, 0]] : List (List ℚ)).getD a []).getD b 0) = 0 := by
        intro a b
        rcases a with _ | _ | a <;> rcases b with _ | _ | b <;>
          simp [List.getD]
      rw [hz, hz])

/-- C8 is false as stated: for two atoms at distance 1 with zero target
matrix, the source computes force `(2, 0, 0)` on atom 1 (pushing the
atoms apart, as the energy `1/d²` demands), while the claimed formula
`−2·Σ_j (Δ·(1 − 2Δ/d)/d⁵)·D_ij` gives `(−2, 0, 0)` — the opposite sign. -/
theorem idpp_force_sign_counterexample :
    (idppCalculate sqTab [[0, 0], [0, 0]] [(0, 0, 0), (1, 0, 0)]).map
        (fun r => r.2.getD 1 v3zero) = some ((2 : ℚ), 0, 0)
    ∧ idppSpecForce sqTab [[0, 0], [0, 0]] [(0, 0, 0), (1, 0, 0)] 1
        = ((-2 : ℚ), 0, 0) := by
  have hrange : List.range 2 = [0, 1] := rfl
  constructor <;>
    norm_num [idppCalculate, idppEnergy, idppForceRow, idppSpecForce,
      idppCoeff, idppDd, idppDist, idppDhat, idppD, optList, qdiv, hrange,
      v3sub, v3smul, v3add, v3dot, v3normSq, v3zero, sqTab, Prod.ext_iff]

theorem aSub_length (a b : List Vec3) :
    (aSub a b).length = min a.length b.length := by
  simp [aSub]

theorem aAdd_length (a b : List Vec3) :
    (aAdd a b).length = min a.length b.length := by
  simp [aAdd]

theorem aSmul_length (c : ℚ) (a : List Vec3) :
    (aSmul c a).length = a.length := by
  simp [aSmul]

theorem aDivs_some_length (a : List Vec3) (c : ℚ) (b : List Vec3)
    (h : aDivs a c = some b) : b.length = a.length := by
  rw [aDivs] at h
  split at h
  · exact Option.noConfusion h
  · cases h
    exact aSmul_length _ _

theorem flattenV_length : ∀ l : List Vec3, (flattenV l).length = 3 * l.length := by
  intro l
  induction l with
  | nil => rfl
  | cons x t ih =>
    obtain ⟨a, b, c⟩ := x
    simp only [flattenV, List.length_cons, ih]
    omega

theorem vsubL_length (a b : List ℚ) :
    (vsubL a b).length = min a.length b.length := by
  simp [vsubL]

theorem vaddL_length (a b : List ℚ) :
    (vaddL a b).length = min a.length b.length := by
  simp [vaddL]

theorem vsmulL_length (c : ℚ) (a : List ℚ) :
    (vsmulL c a).length = a.length := by
  simp [vsmulL]

theorem getD_length_of_uniform {natoms : ℕ} (l : List (List Vec3))
    (h : ∀ p ∈ l, p.length = natoms) (j : ℕ) (hj : j < l.length) :
    (l.getD j []).length = natoms := by
  rw [List.getD_eq_getElem?_getD, List.getElem?_eq_getElem hj,
    Option.getD_some]
  exact h _ (List.getElem_mem hj)

theorem imageForce_length (m : NebMethod) (climb : Bool) (k : List ℚ)
    (sq : ℚ → ℚ) (pos : List (List Vec3)) (energies : List ℚ)
    (rawF : List (List Vec3)) (imax i natoms : ℕ)
    (hpos : ∀ p ∈ pos, p.length = natoms)
    (hraw : ∀ b ∈ rawF, b.length = natoms)
    (hi1 : i + 1 < pos.length) (hij : i - 1 < rawF.length)
    (fi : List Vec3)
    (hfi : imageForce m climb k sq pos energies rawF imax i = some fi) :
    fi.length = natoms := by
  have hp1 : (pos.getD i []).length = natoms :=
    getD_length_of_uniform pos hpos i (by omega)
  have hp0 : (pos.getD (i - 1) []).length = natoms :=
    getD_length_of_uniform pos hpos (i - 1) (by omega)
  have hp2 : (pos.getD (i + 1) []).length = natoms :=
    getD_length_of_uniform pos hpos (i + 1) hi1
  have hff : (rawF.getD (i - 1) []).length = natoms :=
    getD_length_of_uniform rawF hraw (i - 1) hij
  have ht1 : (aSub (pos.getD i []) (pos.getD (i - 1) [])).length = natoms := by
    rw [aSub_length, hp1, hp0, min_self]
  have ht2 : (aSub (pos.getD (i + 1) []) (pos.getD i [])).length = natoms := by
    rw [aSub_length, hp2, hp1, min_self]
  cases m with
  | aseneb =>
    simp only [imageForce] at hfi
    set t1 := aSub (pos.getD i []) (pos.getD (i - 1) []) with ht1d
    set t2 := aSub (pos.getD (i + 1) []) (pos.getD i []) with ht2d
    set f := rawF.getD (i - 1) [] with hfd
    set tg := (if i < imax then t2 else if imax < i then t1 else aAdd t1 t2)
      with htgd
    have htg : tg.length = natoms := by
      rw [htgd]
      split_ifs
      · exact ht2
      · exact ht1
      · rw [aAdd_length, ht1, ht2, min_self]
    split at hfi
    · rcases Option.map_eq_some'.mp hfi with ⟨c, _, hfi2⟩
      rw [← hfi2, aSub_length, hff, aSmul_length, htg, min_self]
    · rcases Option.bind_eq_some.mp hfi with ⟨c1, _, h2⟩
      rcases Option.map_eq_some'.mp h2 with ⟨c2, _, h3⟩
      rw [← h3, aSub_length, aSub_length, hff, aSmul_length, aSmul_length,
        htg, min_self, min_self]
  | improvedtangent =>
    simp only [imageForce] at hfi
    set t1 := aSub (pos.getD i []) (pos.getD (i - 1) []) with ht1d
    set t2 := aSub (pos.getD (i + 1) []) (pos.getD i []) with ht2d
    set f := rawF.getD (i - 1) [] with hfd
    rcases Option.map_eq_some'.mp hfi with ⟨tg, htgdiv, hfi2⟩
    have htgl : tg.length = natoms := by
      rw [aDivs_some_length _ _ _ htgdiv]
      split_ifs
      · exact ht2
      · exact ht1
      · rw [aAdd_length, aSmul_length, aSmul_length, ht1, ht2, min_self]
      · rw [aAdd_length, aSmul_length, aSmul_length, ht1, ht2, min_self]
    rw [← hfi2]
    split
    · rw [aSub_length, hff, aSmul_length, htgl, min_self]
    · rw [aAdd_length, aSub_length, aSmul_length, aSmul_length, hff, htgl,
        min_self, min_self]
  | eb =>
    simp only [imageForce] at hfi
    set t1 := aSub (pos.getD i []) (pos.getD (i - 1) []) with ht1d
    set t2 := aSub (pos.getD (i + 1) []) (pos.getD i []) with ht2d
    set f := rawF.getD (i - 1) [] with hfd
    rcases Option.bind_eq_some.mp hfi with ⟨u1, hu1, h2⟩
    rcases Option.bind_eq_some.mp h2 with ⟨u2, hu2, h3⟩
    rcases Option.bind_eq_some.mp h3 with ⟨tg, htgdiv, h4⟩
    have hu1l : u1.length = natoms := by
      rw [aDivs_some_length _ _ _ hu1, ht1]
    have hu2l : u2.length = natoms := by
      rw [aDivs_some_length _ _ _ hu2, ht2]
    have htgl : tg.length = natoms := by
      rw [aDivs_some_length _ _ _ htgdiv, aAdd_length, hu1l, hu2l, min_self]
    split at h4
    · cases h4
      rw [aSub_length, hff, aSmul_length, htgl, min_self]
    · rcases Option.bind_eq_some.mp h4 with ⟨f1, hf1, h5⟩
      rcases Option.bind_eq_some.mp h5 with ⟨f2, hf2, h6⟩
      have hf1l : f1.length = natoms := by
        rw [aDivs_some_length _ _ _ hf1, aSmul_length, ht1]
      have hf2l : f2.length = natoms := by
        rw [aDivs_some_length _ _ _ hf2, aSmul_length, ht2]
      split at h6
      · rcases Option.map_eq_some'.mp h6 with ⟨q, _, h7⟩
        rw [← h7, aAdd_length, aSub_length, hff, aSmul_length, htgl,
          min_self, aSmul_length, aAdd_length, hf1l, hf2l, min_self,
          min_self]
      · cases h6
        rw [aAdd_length, aSub_length, hff, aSmul_length, htgl, min_self,
          aAdd_length, hf1l, hf2l, min_self, min_self]

theorem optList_some_length {α : Type} : ∀ (l : List (Option α)) (ys : List α),
    optList l = some ys → ys.length = l.length := by
  intro l
  induction l with
  | nil =>
    intro ys h
    cases h
    rfl
  | cons x t ih =>
    intro ys h
    rw [show optList (x :: t)
        = x.bind fun a => (optList t).map fun l2 => a :: l2 from rfl] at h
    rcases Option.bind_eq_some.mp h with ⟨a, _, h2⟩
    rcases Option.map_eq_some'.mp h2 with ⟨l2, hl2, h3⟩
    rw [← h3, List.length_cons, List.length_cons, ih l2 hl2]

theorem optList_some_mem {α : Type} : ∀ (l : List (Option α)) (ys : List α),
    optList l = some ys → ∀ y ∈ ys, some y ∈ l := by
  intro l
  induction l with
  | nil =>
    intro ys h
    cases h
    intro y hy
    exact absurd hy (List.not_mem_nil y)
  | cons x t ih =>
    intro ys h
    rw [show optList (x :: t)
        = x.bind fun a => (optList t).map fun l2 => a :: l2 from rfl] at h
    rcases Option.bind_eq_some.mp h with ⟨a, ha, h2⟩
    rcases Option.map_eq_some'.mp h2 with ⟨l2, hl2, h3⟩
    intro y hy
    rw [← h3] at hy
    rcases List.mem_cons.mp hy with hy1 | hy2
    · rw [hy1, ← ha]
      exact List.mem_cons_self x t
    · exact List.mem_cons_of_mem x (ih l2 hl2 y hy2)

theorem applyDyn_shape (cond : ℕ → List Vec3 → Bool) (imax natoms : ℕ) :
    ∀ (fs : List (List Vec3)) (j0 : ℕ),
      (∀ b ∈ fs, b.length = natoms) →
      (applyDyn cond imax j0 fs).length = fs.length
        ∧ ∀ b ∈ applyDyn cond imax j0 fs, b.length = natoms := by
  intro fs
  induction fs with
  | nil => intro j0 _; exact ⟨rfl, by intro b hb; exact absurd hb (List.not_mem_nil b)⟩
  | cons fj rest ih =>
    intro j0 h
    obtain ⟨ihl, ihm⟩ := ih (j0 + 1) (fun b hb => h b (List.mem_cons_of_mem fj hb))
    constructor
    · rw [show applyDyn cond imax j0 (fj :: rest)
          = (if cond (j0 + 1) fj ∧ j0 + 1 ≠ imax then fj.map fun _ => v3zero
             else fj) :: applyDyn cond imax (j0 + 1) rest from rfl]
      simp [ihl]
    · intro b hb
      rw [show applyDyn cond imax j0 (fj :: rest)
          = (if cond (j0 + 1) fj ∧ j0 + 1 ≠ imax then fj.map fun _ => v3zero
             else fj) :: applyDyn cond imax (j0 + 1) rest from rfl] at hb
      rcases List.mem_cons.mp hb with hb1 | hb2
      · rw [hb1]
        split
        · rw [List.length_map]
          exact h fj (List.mem_cons_self fj rest)
        · exact h fj (List.mem_cons_self fj rest)
      · exact ihm b hb2

theorem flatten_length_uniform {α : Type} (n : ℕ) :
    ∀ l : List (List α), (∀ b ∈ l, b.length = n) →
      l.flatten.length = l.length * n := by
  intro l
  induction l with
  | nil => intro _; simp
  | cons b t ih =>
    intro h
    rw [List.flatten_cons, List.length_append, List.length_cons,
      h b (List.mem_cons_self b t), ih (fun b2 hb2 => h b2 (List.mem_cons_of_mem b hb2))]
    ring

/-- Shape of the `NEB.get_forces` result: `M - 2` blocks of `natoms` rows. -/
theorem nebForces_shape (m : NebMethod) (climb dynR : Bool)
    (fmax scale : ℚ) (k : List ℚ) (sq : ℚ → ℚ) (pos : List (List Vec3))
    (energies : List ℚ) (rawF : List (List Vec3)) (natoms : ℕ)
    (fs : List (List Vec3))
    (hpos : ∀ p ∈ pos, p.length = natoms)
    (hraw : ∀ b ∈ rawF, b.length = natoms)
    (hrawlen : rawF.length = pos.length - 2)
    (hfs : nebForces m climb dynR fmax scale k sq pos energies rawF
      = some fs) :
    fs.length = pos.length - 2 ∧ ∀ b ∈ fs, b.length = natoms := by
  simp only [nebForces] at hfs
  rcases hopt : optList ((List.range (pos.length - 2)).map
      (fun j => imageForce m climb k sq pos energies rawF
        (imaxOf energies) (j + 1))) with _ | fs0
  · rw [hopt] at hfs
    exact Option.noConfusion hfs
  · rw [hopt] at hfs
    have hfs0len : fs0.length = pos.length - 2 := by
      rw [optList_some_length _ _ hopt, List.length_map, List.length_range]
    have hfs0mem : ∀ b ∈ fs0, b.length = natoms := by
      intro b hb
      have := optList_some_mem _ _ hopt b hb
      rcases List.mem_map.mp this with ⟨j, hjr, hje⟩
      have hjlt : j < pos.length - 2 := List.mem_range.mp hjr
      exact imageForce_length m climb k sq pos energies rawF
        (imaxOf energies) (j + 1) natoms hpos hraw (by omega)
        (by rw [hrawlen]; omega) b hje
    cases hfs
    split
    · obtain ⟨hl, hm⟩ := applyDyn_shape
        (dynCond sq fmax scale pos (imaxOf energies)) (imaxOf energies)
        natoms fs0 0 hfs0mem
      rw [hl]
      exact ⟨hfs0len, hm⟩
    · exact ⟨hfs0len, hfs0mem⟩

theorem optList_exists_of_forall_some {α : Type} :
    ∀ l : List (Option α), (∀ x ∈ l, ∃ a, x = some a) →
      ∃ ys, optList l = some ys := by
  intro l
  induction l with
  | nil => intro _; exact ⟨[], rfl⟩
  | cons x t ih =>
    intro h
    obtain ⟨a, ha⟩ := h x (List.mem_cons_self x t)
    obtain ⟨ys, hys⟩ := ih (fun y hy => h y (List.mem_cons_of_mem x hy))
    refine ⟨a :: ys, ?_⟩
    rw [show optList (x :: t)
        = x.bind fun a2 => (optList t).map fun l2 => a2 :: l2 from rfl,
      ha, hys]
    rfl

/-- Shape of the `PreconMEP.get_forces` result: under the spec §4.7 oracle
contract, `M - 2` blocks of `natoms` rows each (a 3-D `(M-2, N, 3)`
array). -/
theorem preconGetForces_shape (applyP : ℕ → List ℚ → List ℚ)
    (pdot : ℕ → List ℚ → List ℚ → ℚ) (pnorm : ℕ → List ℚ → ℚ)
    (pPdot : ℕ → List ℚ → List ℚ) (dxds d2xds2 : ℚ → List ℚ)
    (isNeb : Bool) (k : List ℚ) (M natoms : ℕ) (s : List ℚ)
    (rawF : List (List Vec3))
    (happly : ∀ i v, (applyP i v).length = v.length)
    (hdx : ∀ x, (dxds x).length = 3 * natoms)
    (hraw : ∀ b ∈ rawF, b.length = natoms)
    (hrawlen : rawF.length = M - 2)
    (hnorm : ∀ j, j < M - 2 →
      pnorm (j + 1) (dxds (s.getD (j + 1) 0)) ≠ 0) :
    ∃ Fr, preconGetForces applyP pdot pnorm pPdot dxds d2xds2 isNeb k M s
        rawF = some Fr
      ∧ Fr.1.length = M - 2 ∧ ∀ b ∈ Fr.1, b.length = natoms := by
  have hall : ∀ x ∈ (List.range (M - 2)).map
      (preconImageForce applyP pdot pnorm pPdot dxds d2xds2 isNeb k M s
        rawF), ∃ a, x = some a := by
    intro x hx
    rcases List.mem_map.mp hx with ⟨j, hjr, hje⟩
    rw [← hje]
    simp only [preconImageForce]
    rw [if_neg (hnorm j (List.mem_range.mp hjr))]
    exact ⟨_, rfl⟩
  obtain ⟨ys, hys⟩ := optList_exists_of_forall_some _ hall
  refine ⟨(ys.map Prod.fst, ys.map Prod.snd), ?_, ?_, ?_⟩
  · simp only [preconGetForces]
    rw [hys]
    rfl
  · rw [List.length_map, optList_some_length _ _ hys, List.length_map,
      List.length_range]
  · intro b hb
    rcases List.mem_map.mp hb with ⟨y, hy, hyb⟩
    have hsy := optList_some_mem _ _ hys y hy
    rcases List.mem_map.mp hsy with ⟨j, hjr, hje⟩
    have hjlt : j < M - 2 := List.mem_range.mp hjr
    simp only [preconImageForce] at hje
    rw [if_neg (hnorm j hjlt), Option.map_some'] at hje
    have hfv : (flattenV (rawF.getD j [])).length = 3 * natoms := by
      rw [flattenV_length,
        getD_length_of_uniform rawF hraw j (by rw [hrawlen]; exact hjlt)]
    have htp : (vsmulL (pnorm (j + 1) (dxds (s.getD (j + 1) 0)))⁻¹
        (dxds (s.getD (j + 1) 0))).length = 3 * natoms := by
      rw [vsmulL_length, hdx]
    cases hje
    rw [← hyb]
    dsimp only
    rw [chunk3_length]
    split
    · rw [vaddL_length, vsubL_length, happly, hfv, vsmulL_length, htp,
        min_self, vsmulL_length, htp, min_self]
      omega
    · rw [vsubL_length, happly, hfv, vsmulL_length, htp, min_self]
      omega

/-- C10: `NEB.get_forces` returns a flat 2-D array of `(M-2)·N` rows of 3
components, while `PreconMEP.get_forces` returns `M-2` separate blocks of
`N` rows (a 3-D `(M-2, N, 3)` array) — the two entry points are not
shape-compatible; `PreconMEP.force_function` flattens its result to a
length-`3·N·(M-2)` vector, so `PreconMEP.run` is unaffected. -/
theorem get_forces_shapes (m : NebMethod) (climb dynR : Bool)
    (fmax scale : ℚ) (kneb : List ℚ) (sq : ℚ → ℚ)
    (pos : List (List Vec3)) (energies : List ℚ) (rawF : List (List Vec3))
    (natoms : ℕ) (fs : List (List Vec3))
    (applyP : ℕ → List ℚ → List ℚ) (pdot : ℕ → List ℚ → List ℚ → ℚ)
    (pnorm : ℕ → List ℚ → ℚ) (pPdot : ℕ → List ℚ → List ℚ)
    (dxds d2xds2 : ℚ → List ℚ) (isNeb : Bool) (kp : List ℚ) (s : List ℚ)
    (c : List Image) (X : List ℚ)
    (hpos : ∀ p ∈ pos, p.length = natoms)
    (hraw : ∀ b ∈ rawF, b.length = natoms)
    (hrawlen : rawF.length = pos.length - 2)
    (happly : ∀ i v, (applyP i v).length = v.length)
    (hdx : ∀ x, (dxds x).length = 3 * natoms)
    (hnorm : ∀ j, j < pos.length - 2 →
      pnorm (j + 1) (dxds (s.getD (j + 1) 0)) ≠ 0)
    (hfs : nebForces m climb dynR fmax scale kneb sq pos energies rawF
      = some fs) :
    nebGetForcesFlat m climb dynR fmax scale kneb sq pos energies rawF
        = some fs.flatten
    ∧ fs.flatten.length = (pos.length - 2) * natoms
    ∧ ∃ Fr, preconGetForces applyP pdot pnorm pPdot dxds d2xds2 isNeb kp
          pos.length s rawF = some Fr
        ∧ Fr.1.length = pos.length - 2
        ∧ (∀ b ∈ Fr.1, b.length = natoms)
        ∧ (preconForceFunction applyP pdot pnorm pPdot dxds d2xds2 isNeb
            kp pos.length natoms s rawF c X).2
            = some ((Fr.1.map flattenV).flatten)
        ∧ ((Fr.1.map flattenV).flatten).length
            = 3 * natoms * (pos.length - 2) := by
  obtain ⟨hlen, hmem⟩ := nebForces_shape m climb dynR fmax scale kneb sq
    pos energies rawF natoms fs hpos hraw hrawlen hfs
  obtain ⟨Fr, hFr, hFrlen, hFrmem⟩ := preconGetForces_shape applyP pdot
    pnorm pPdot dxds d2xds2 isNeb kp pos.length natoms s rawF happly hdx
    hraw hrawlen hnorm
  refine ⟨?_, ?_, Fr, hFr, hFrlen, hFrmem, ?_, ?_⟩
  · rw [nebGetForcesFlat, hfs]
    rfl
  · rw [flatten_length_uniform natoms fs hmem, hlen]
  · simp only [preconForceFunction]
    rw [hFr]
    rfl
  · rw [flatten_length_uniform (3 * natoms) (Fr.1.map flattenV)
      (by
        intro x hx
        rcases List.mem_map.mp hx with ⟨b, hb, hbx⟩
        rw [← hbx, flattenV_length, hFrmem b hb]),
      List.length_map, hFrlen]
    ring

/-- Witness for `get_forces_shapes` on a concrete 3-image single-atom
chain with concrete preconditioner and spline oracles. -/
theorem get_forces_shapes_witness :
    nebGetForcesFlat .aseneb false false 0 0 [1, 1] sqTab
        [[(0, 0, 0)], [(1, 0, 0)], [(3, 0, 0)]] [0, 0, 0]
        [[(1 / 10, 0, 0)]]
      = some ([[((1 : ℚ), 0, 0)]] : List (List Vec3)).flatten
    ∧ (([[((1 : ℚ), 0, 0)]] : List (List Vec3)).flatten).length = 1
    ∧ ∃ Fr, preconGetForces (fun _ v => v) (fun _ u v => dotL u v)
          (fun _ _ => 1) (fun _ v => v) (fun _ => [1, 0, 0])
          (fun _ => [0, 0, 0]) true [1, 1] 3 [0, 1 / 2, 1]
          [[(1 / 10, 0, 0)]] = some Fr
        ∧ Fr.1.length = 1
        ∧ (∀ b ∈ Fr.1, b.length = 1)
        ∧ (preconForceFunction (fun _ v => v) (fun _ u v => dotL u v)
            (fun _ _ => 1) (fun _ v => v) (fun _ => [1, 0, 0])
            (fun _ => [0, 0, 0]) true [1, 1] 3 1 [0, 1 / 2, 1]
            [[(1 / 10, 0, 0)]] chainC1 [9, 9, 9]).2
            = some ((Fr.1.map flattenV).flatten)
        ∧ ((Fr.1.map flattenV).flatten).length = 3 :=
  get_forces_shapes .aseneb false false 0 0 [1, 1] sqTab
    [[(0, 0, 0)], [(1, 0, 0)], [(3, 0, 0)]] [0, 0, 0] [[(1 / 10, 0, 0)]]
    1 [[((1 : ℚ), 0, 0)]] (fun _ v => v) (fun _ u v => dotL u v)
    (fun _ _ => 1) (fun _ v => v) (fun _ => [1, 0, 0])
    (fun _ => [0, 0, 0]) true [1, 1] [0, 1 / 2, 1] chainC1 [9, 9, 9]
    (by intro p hp; fin_cases hp <;> rfl)
    (by intro b hb; fin_cases hb; rfl)
    rfl
    (fun _ _ => rfl)
    (fun _ => rfl)
    (by intro j hj; norm_num)
    (by
      have him : imaxOf [(0 : ℚ), 0, 0] = 1 := by decide
      have hrange : List.range ((3 : ℕ) - 2) = [0] := rfl
      norm_num [nebForces, hrange, him, imageForce, optList, qdiv, aDivs,
        aSub, aAdd, aSmul, aDot, aNormSq, v3sub, v3add, v3smul, v3dot,
        v3normSq, v3zero, sqTab])
